import Mathlib

/-!
Shallow embedding of the 15-puzzle solver repository.

Conventions of the embedding:
* Rust `u8`/`usize`/`u64` values are modelled as `Nat`.  All verified
  executions stay far below the wrap-around bounds, and the Rust code is
  compiled with overflow checks in debug builds, so `Nat` arithmetic is
  faithful on the inputs covered by the hypotheses of the theorems below
  (Rust's truncating unsigned subtraction corresponds to `Nat` subtraction).
* Rust slices/`Vec`/`Box<[u8]>` are modelled as `List Nat`; `HashSet` and
  `VecDeque` are modelled as lists (membership up to `=`, FIFO order).
* Rust panics (`expect`, out-of-bounds indexing, `todo!`) are modelled by
  total default values (`getD`) in positions that the validity invariants
  rule out, and by `Option`/dedicated error values where a claim is about
  the panic itself.
* Iteration (`for`, `while`) is modelled by folds or fuel-based structural
  recursion so that every definition reduces by `decide`/`rfl`.
-/

set_option maxRecDepth 100000

namespace Puzzle

/-- Embeds `BoardMove` from `src/board/mod.rs`. -/
inductive BoardMove
  | Up
  | Down
  | Left
  | Right
deriving DecidableEq, Repr

/-- Modelled from the spec: `BoardMove::opposite` is called throughout the
solving code (`movegen.rs`, `dfs.rs`, `algorithm/mod.rs`) but its definition
is missing from the source snapshot; the spec states the Move type "has a
total involution `opposite()`", and `is_opposite_move` in `board/mod.rs`
pairs Up with Down and Left with Right. -/
def BoardMove.opposite : BoardMove → BoardMove
  | .Up => .Down
  | .Down => .Up
  | .Left => .Right
  | .Right => .Left

/-- Embeds `is_opposite_move` from `src/board/mod.rs`. -/
def is_opposite_move (move1 move2 : BoardMove) : Bool :=
  match move1, move2 with
  | .Up, .Down | .Down, .Up | .Left, .Right | .Right, .Left => true
  | _, _ => false

/-- Embeds `OwnedBoard` from `src/board/owned.rs` (`cells` is the row-major
cell buffer, value 0 is the blank). -/
structure OwnedBoard where
  rows : Nat
  columns : Nat
  cells : List Nat
deriving DecidableEq, Repr

/-- Field-wise Boolean equality (the derived `HashSet`/`PartialEq` equality
of `OwnedBoard`), kept separate from the derived decidable equality so that
visited-set lookups reduce efficiently. -/
instance : BEq OwnedBoard where
  beq a b := a.rows == b.rows && a.columns == b.columns && a.cells == b.cells

instance : LawfulBEq OwnedBoard where
  eq_of_beq := by
    intro a b h
    cases a
    cases b
    simp only [BEq.beq, Bool.and_eq_true, beq_iff_eq] at h
    obtain ⟨⟨h1, h2⟩, h3⟩ := h
    have h4 : _ = _ := eq_of_beq (α := List Nat) h3
    simp_all
  rfl := by
    intro a
    cases a
    simp only [BEq.beq, Bool.and_eq_true, beq_iff_eq]
    refine ⟨⟨by simp, by simp⟩, ?_⟩
    exact beq_self_eq_true (α := List Nat) _

/-- Embeds `OwnedBoard::flatten_index`. -/
def flatten_index (b : OwnedBoard) (row column : Nat) : Nat :=
  row * b.columns + column

/-- Embeds `Board::at` for `OwnedBoard` (`self.cells[self.flatten_index(row, column)]`;
out-of-bounds indexing panics in Rust and is modelled by the default 0,
which the validity hypotheses rule out). -/
def board_at (b : OwnedBoard) (row column : Nat) : Nat :=
  b.cells.getD (flatten_index b row column) 0

/-- Index of the blank used by `empty_cell_pos` (`cells.iter().position(|c| *c == 0)`). -/
def empty_cell_index (b : OwnedBoard) : Nat :=
  b.cells.indexOf 0

/-- Embeds `Board::empty_cell_pos` for `OwnedBoard`. -/
def empty_cell_pos (b : OwnedBoard) : Nat × Nat :=
  (empty_cell_index b / b.columns, empty_cell_index b % b.columns)

/-- Embeds `Board::is_solved` for `OwnedBoard`: last cell is 0 and the cells
zipped with `1..cells.len()` all match. -/
def is_solved (b : OwnedBoard) : Bool :=
  b.cells.getLastD 1 == 0 &&
    (b.cells.zip (List.range' 1 (b.cells.length - 1))).all fun p => p.1 == p.2

/-- Embeds `Board::can_move` for `OwnedBoard`. -/
def can_move (b : OwnedBoard) (board_move : BoardMove) : Bool :=
  match board_move with
  | .Up => (empty_cell_pos b).1 > 0
  | .Down => (empty_cell_pos b).1 < b.rows - 1
  | .Left => (empty_cell_pos b).2 > 0
  | .Right => (empty_cell_pos b).2 < b.columns - 1

/-- Embeds `Board::exec_move` for `OwnedBoard`: swap the blank with the
adjacent cell in the given direction (the `assert!(can_move)` panic is the
callers' responsibility; all uses below are guarded by `can_move`). -/
def exec_move (b : OwnedBoard) (board_move : BoardMove) : OwnedBoard :=
  let zero_pos := empty_cell_pos b
  let target_pos : Nat × Nat :=
    match board_move with
    | .Up => (zero_pos.1 - 1, zero_pos.2)
    | .Down => (zero_pos.1 + 1, zero_pos.2)
    | .Left => (zero_pos.1, zero_pos.2 - 1)
    | .Right => (zero_pos.1, zero_pos.2 + 1)
  let zero_index := flatten_index b zero_pos.1 zero_pos.2
  let target_index := flatten_index b target_pos.1 target_pos.2
  let target_value := b.cells.getD target_index 0
  { b with cells := (b.cells.set target_index 0).set zero_index target_value }

/-- The target position of the blank for a move, as computed inside
`exec_move`. -/
def move_target_pos (b : OwnedBoard) (board_move : BoardMove) : Nat × Nat :=
  let zero_pos := empty_cell_pos b
  match board_move with
  | .Up => (zero_pos.1 - 1, zero_pos.2)
  | .Down => (zero_pos.1 + 1, zero_pos.2)
  | .Left => (zero_pos.1, zero_pos.2 - 1)
  | .Right => (zero_pos.1, zero_pos.2 + 1)

/-- The flattened index of the cell the blank swaps with in `exec_move`. -/
def move_target_index (b : OwnedBoard) (board_move : BoardMove) : Nat :=
  flatten_index b (move_target_pos b board_move).1 (move_target_pos b board_move).2

/-- Exchange of the entries at positions `i` and `j` of a list (the effect
of `exec_move` on the cell buffer). -/
def list_swap (l : List Nat) (i j : Nat) : List Nat :=
  (l.set j (l.getD i 0)).set i (l.getD j 0)

/-- The one-blank permutation invariant: the cell buffer of a `rows × columns`
board holds each value in `[0, rows*columns)` exactly once (spec section 3);
positive dimensions as required of every parsed board. -/
def ValidBoard (b : OwnedBoard) : Prop :=
  0 < b.rows ∧ 0 < b.columns ∧ b.cells.Perm (List.range (b.rows * b.columns))

instance (b : OwnedBoard) : Decidable (ValidBoard b) := by
  unfold ValidBoard; infer_instance

/-- The solved `rows × columns` board `[1, 2, …, rows*columns-1, 0]`. -/
def solved_board (rows columns : Nat) : OwnedBoard :=
  { rows := rows, columns := columns,
    cells := List.range' 1 (rows * columns - 1) ++ [0] }

/-- Embeds `Parity` from `src/parity.rs` / `src/solving/parity.rs`. -/
inductive Parity
  | Even
  | Odd
deriving DecidableEq, Repr

/-- Embeds `Parity::opposite`. -/
def Parity.opposite : Parity → Parity
  | .Even => .Odd
  | .Odd => .Even

/-- Embeds `impl From<usize> for Parity` (named fromNat: enum inductives auto-generate an ofNat). -/
def Parity.fromNat (value : Nat) : Parity :=
  if value % 2 = 0 then .Even else .Odd

/-- Embeds `impl Add for Parity`. -/
def Parity.add : Parity → Parity → Parity
  | .Even, .Even => .Even
  | .Odd, .Odd => .Even
  | _, _ => .Odd

/-- One step of the cycle-following loop: `element = permutation[element]`
(out of range indexing panics in Rust; the default 0 is never exercised on
valid permutations). -/
def perm_step (cells : List Nat) (x : Nat) : Nat :=
  cells.getD x 0

/-- Embeds the inner `while !visited.contains(element)` loop of
`calculate_parity` (`src/parity.rs`): marks the whole cycle of the starting
element as visited and returns its length.  The loop always terminates on a
permutation; structural fuel (`cells.length + 1` at every call site) makes
the recursion definitional. -/
def trace_cycle (cells : List Nat) : Nat → Nat → List Nat → List Nat × Nat
  | 0, _, visited => (visited, 0)
  | fuel + 1, x, visited =>
    if x ∈ visited then (visited, 0)
    else
      let r := trace_cycle cells fuel (perm_step cells x) (x :: visited)
      (r.1, r.2 + 1)

/-- Embeds the outer `for &element in permutation` loop of
`calculate_parity`: collects the length of every cycle longer than 1, in
encounter order. -/
def collect_cycle_lengths (cells : List Nat) : List Nat → List Nat → List Nat × List Nat
  | [], visited => ([], visited)
  | x :: rest, visited =>
    let r := trace_cycle cells (cells.length + 1) x visited
    let rec' := collect_cycle_lengths cells rest r.1
    (if r.2 > 1 then r.2 :: rec'.1 else rec'.1, rec'.2)

/-- Embeds `calculate_parity` from `src/parity.rs` (identical, up to the
final fold, to `permutation_parity` in `src/solving/parity.rs`): the parity
is odd iff the number of even-length cycles is odd. -/
def calculate_parity (cells : List Nat) : Parity :=
  let cycle_lengths := (collect_cycle_lengths cells cells []).1
  let odd_cycle_count := (cycle_lengths.filter fun len => len % 2 == 0).length
  if odd_cycle_count % 2 = 0 then .Even else .Odd

/-- Embeds `solved_board_parity` (`src/parity.rs` and `src/solving/parity.rs`
agree): opposite of the parity of the total cell count. -/
def solved_board_parity (b : OwnedBoard) : Parity :=
  (Parity.fromNat (b.rows * b.columns)).opposite

/-- Embeds `abs_diff` from `is_solvable` in `src/solving/mod.rs`. -/
def abs_diff (x y : Nat) : Nat :=
  if x > y then x - y else y - x

/-- Embeds the cell readout loop of `is_solvable` (`for row … for column …
cells.push(board.at(row, column))`). -/
def read_cells (b : OwnedBoard) : List Nat :=
  (List.range b.rows).flatMap fun row =>
    (List.range b.columns).map fun column => board_at b row column

/-- Embeds `is_solvable` from `src/solving/mod.rs`: a board is solvable iff
the permutation parity plus the solved-board parity equals the parity of the
blank's taxicab distance to the bottom-right corner. -/
def is_solvable (b : OwnedBoard) : Bool :=
  let cells := read_cells b
  let board_parity := calculate_parity cells
  let sbp := solved_board_parity b
  let current_empty_pos := empty_cell_pos b
  let zero_manhattan_distance :=
    abs_diff (b.rows - 1) current_empty_pos.1 + abs_diff (b.columns - 1) current_empty_pos.2
  (board_parity.add sbp) == Parity.fromNat zero_manhattan_distance

/-- Embeds `required_moves_parity` from `src/solving/parity.rs`: parity of
`(rows-1 - row) + (columns-1 - column)` for the blank (plain truncating
subtraction in the source, matching `Nat` subtraction). -/
def required_moves_parity (b : OwnedBoard) : Parity :=
  let current_empty_pos := empty_cell_pos b
  Parity.fromNat ((b.rows - 1 - current_empty_pos.1) + (b.columns - 1 - current_empty_pos.2))

/-- Embeds `MoveSequence` from `src/solving/movegen.rs`. -/
inductive MoveSequence
  | Single (m : BoardMove)
  | Double (fst snd : BoardMove)
deriving DecidableEq, Repr

/-- Embeds `SearchOrder` from `src/solving/movegen.rs` (the `Provided` array
of 4 moves is modelled as a list). -/
inductive SearchOrder
  | Provided (order : List BoardMove)
  | Random
deriving DecidableEq, Repr

/-- Embeds the default search order (`MoveGenerator::default`). -/
def default_order : List BoardMove :=
  [.Up, .Down, .Left, .Right]

/-- Embeds `position_after_move` from `src/solving/movegen.rs` (signed `i16`
coordinates are modelled as `Int`). -/
def position_after_move (initial_position : Int × Int) (board_move : BoardMove) : Int × Int :=
  match board_move with
  | .Up => (initial_position.1 - 1, initial_position.2)
  | .Down => (initial_position.1 + 1, initial_position.2)
  | .Left => (initial_position.1, initial_position.2 - 1)
  | .Right => (initial_position.1, initial_position.2 + 1)

/-- Embeds `is_inside_board` from `src/solving/movegen.rs`. -/
def is_inside_board (position : Int × Int) (b : OwnedBoard) : Bool :=
  position.1 ≥ 0 && position.2 ≥ 0 && position.1 < (b.rows : Int) && position.2 < (b.columns : Int)

/-- Embeds `MoveGenerator::generate_moves` for a `Provided` search order:
singles when the required-move parity is odd, pairs when it is even, skipping
first moves that leave the board or undo `previous_move`, and second moves
that leave the board or undo the first move.  `flatMap` preserves the push
order of the Rust loops. -/
def generate_moves (order : List BoardMove) (board : OwnedBoard)
    (previous_move : Option BoardMove) : List MoveSequence :=
  let generate_single_move := required_moves_parity board == Parity.Odd
  order.flatMap fun first_move =>
    let empty_pos := empty_cell_pos board
    let first_position :=
      position_after_move ((empty_pos.1 : Int), (empty_pos.2 : Int)) first_move
    if !is_inside_board first_position board then []
    else if (match previous_move with
             | some previous => first_move == previous.opposite
             | none => false) then []
    else if generate_single_move then [.Single first_move]
    else
      order.flatMap fun second_move =>
        let second_position := position_after_move first_position second_move
        if !is_inside_board second_position board then []
        else if second_move == first_move.opposite then []
        else [.Double first_move second_move]

/-- Embeds `MoveGenerator::generate_moves` on the full `SearchOrder` type:
the `SearchOrder::Random` arm hits `todo!("Handle random move generation")`,
a panic, modelled as `none`. -/
def generate_moves_checked (search_order : SearchOrder) (board : OwnedBoard)
    (previous_move : Option BoardMove) : Option (List MoveSequence) :=
  match search_order with
  | .Provided order => some (generate_moves order board previous_move)
  | .Random => none

/-- Embeds `manhattan_distance` from
`src/solving/algorithm/heuristic/heuristics.rs` (max/min formulation). -/
def cells_manhattan_distance (p1 p2 : Nat × Nat) : Nat :=
  (max p1.1 p2.1 - min p1.1 p2.1) + (max p1.2 p2.2 - min p1.2 p2.2)

/-- Embeds `nonzero_cell_expected_pos` from
`src/solving/algorithm/heuristic/heuristics.rs`.  Note the source divides by
`rows` (not `columns`) for the row coordinate. -/
def nonzero_cell_expected_pos (cell : Nat) (rows columns : Nat) : Nat × Nat :=
  ((cell - 1) / rows, (cell - 1) % columns)

/-- Embeds `ManhattanDistance::evaluate` from
`src/solving/algorithm/heuristic/heuristics.rs`: sums, over non-blank cells,
the distance between the current position and `nonzero_cell_expected_pos`. -/
def manhattan_distance_evaluate (b : OwnedBoard) : Nat :=
  (List.range b.rows).foldl (fun acc row =>
    (List.range b.columns).foldl (fun acc column =>
      let value := board_at b row column
      if value = 0 then acc
      else
        acc + cells_manhattan_distance (row, column)
          (nonzero_cell_expected_pos value b.rows b.columns)) acc) 0

/-- Embeds the row-conflict count of `LinearConflict::evaluate`. -/
def linear_conflict_row_conflicts (b : OwnedBoard) : Nat :=
  (List.range b.rows).foldl (fun acc row =>
    (List.range (b.columns - 1)).foldl (fun acc first_column =>
      (List.range' (first_column + 1) (b.columns - (first_column + 1))).foldl
        (fun acc second_column =>
          let first_cell := board_at b row first_column
          let second_cell := board_at b row second_column
          if first_cell = 0 || second_cell = 0 then acc
          else if (nonzero_cell_expected_pos first_cell b.rows b.columns).1 ≠ row ||
              (nonzero_cell_expected_pos second_cell b.rows b.columns).1 ≠ row then acc
          else if first_cell > second_cell then acc + 1
          else acc) acc) acc) 0

/-- Embeds the column-conflict count of `LinearConflict::evaluate`. -/
def linear_conflict_column_conflicts (b : OwnedBoard) : Nat :=
  (List.range b.columns).foldl (fun acc column =>
    (List.range (b.rows - 1)).foldl (fun acc first_row =>
      (List.range' (first_row + 1) (b.rows - (first_row + 1))).foldl
        (fun acc second_row =>
          let first_cell := board_at b first_row column
          let second_cell := board_at b second_row column
          if first_cell = 0 || second_cell = 0 then acc
          else if (nonzero_cell_expected_pos first_cell b.rows b.columns).2 ≠ column ||
              (nonzero_cell_expected_pos second_cell b.rows b.columns).2 ≠ column then acc
          else if first_cell > second_cell then acc + 1
          else acc) acc) acc) 0

/-- Embeds `LinearConflict::evaluate` from
`src/solving/algorithm/heuristic/heuristics.rs`. -/
def linear_conflict_evaluate (b : OwnedBoard) : Nat :=
  manhattan_distance_evaluate b +
    (linear_conflict_row_conflicts b + linear_conflict_column_conflicts b) * 2

/-- Embeds the row-major goal linearization of `InversionDistanceCache::new`. -/
def cache_row_first_order (rows columns : Nat) : List Nat :=
  List.range' 1 (rows * columns - 1) ++ [0]

/-- Embeds the column-major goal linearization of `InversionDistanceCache::new`
(the source pushes `r * rows + c + 1`, then overwrites the final slot with 0). -/
def cache_column_first_order (rows columns : Nat) : List Nat :=
  (((List.range columns).flatMap fun c =>
    (List.range rows).map fun r => r * rows + c + 1).set (rows * columns - 1) 0)

/-- Embeds `InversionDistance::number_of_inversions`: counts pairs `i ≤ j`
whose values appear in reversed order in `expected_order`, ignoring the
blank (`position` panics are modelled by `indexOf`, which is only exercised
on values present in `expected_order` in the verified uses). -/
def number_of_inversions (order expected_order : List Nat) : Nat :=
  (List.range (order.length - 1)).foldl (fun acc i =>
    (List.range' i (order.length - i)).foldl (fun acc j =>
      let first := order.getD i 0
      let second := order.getD j 0
      if first = 0 || second = 0 then acc
      else if expected_order.indexOf first > expected_order.indexOf second then acc + 1
      else acc) acc) 0

/-- Embeds the `while divisor > 0` shift-count loop of
`InversionDistance::evaluate`; fuel (`divisor + 1` at call sites) keeps the
recursion structural. -/
def shift_count : Nat → Nat → Nat → Nat
  | 0, _, _ => 0
  | fuel + 1, inversions, divisor =>
    if divisor = 0 then 0
    else inversions / divisor + shift_count fuel (inversions % divisor) (divisor - 2)

/-- Embeds the column-major readout of the board in `InversionDistance::evaluate`. -/
def read_cells_column_first (b : OwnedBoard) : List Nat :=
  (List.range b.columns).flatMap fun column =>
    (List.range b.rows).map fun row => board_at b row column

/-- Embeds `InversionDistance::evaluate` from
`src/solving/algorithm/heuristic/heuristics.rs`.  The per-dimension cache is
pure memoization: the cached goal linearizations are functions of the
dimensions alone, so the cache is modelled by recomputing them. -/
def inversion_distance_evaluate (b : OwnedBoard) : Nat :=
  let row_inversions :=
    number_of_inversions (read_cells b) (cache_row_first_order b.rows b.columns)
  let column_inversions :=
    number_of_inversions (read_cells_column_first b) (cache_column_first_order b.rows b.columns)
  let vertical := shift_count b.columns row_inversions (b.columns - 1)
  let horizontal := shift_count b.rows column_inversions (b.rows - 1)
  vertical + horizontal

/-- The three provided heuristics (`parse_heuristic` in `src/main.rs` maps
MD/LC/ID onto exactly these implementations). -/
inductive HeuristicKind
  | MD
  | LC
  | ID
deriving DecidableEq, Repr

/-- Dynamic dispatch of `Heuristic::evaluate` over the provided heuristics. -/
def heuristic_evaluate : HeuristicKind → OwnedBoard → Nat
  | .MD, b => manhattan_distance_evaluate b
  | .LC, b => linear_conflict_evaluate b
  | .ID, b => inversion_distance_evaluate b

/-- Embeds `util::apply_move_sequence` (`src/solving/algorithm/mod.rs`) on a
(board, path) pair; `BFSSolver::apply_move_sequence` is identical. -/
def apply_move_sequence (node : OwnedBoard × List BoardMove)
    (move_sequence : MoveSequence) : OwnedBoard × List BoardMove :=
  match move_sequence with
  | .Single m => (exec_move node.1 m, node.2 ++ [m])
  | .Double fst snd => (exec_move (exec_move node.1 fst) snd, node.2 ++ [fst, snd])

/-- Embeds `util::undo_move_sequence` (`src/solving/algorithm/mod.rs`). -/
def undo_move_sequence (node : OwnedBoard × List BoardMove)
    (move_sequence : MoveSequence) : OwnedBoard × List BoardMove :=
  match move_sequence with
  | .Single m => (exec_move node.1 m.opposite, node.2.dropLast)
  | .Double fst snd =>
    (exec_move (exec_move node.1 snd.opposite) fst.opposite, node.2.dropLast.dropLast)

/-- Embeds the mutable state of `DFSSolver` (`src/solving/algorithm/dfs.rs`):
the visited `HashSet` is modelled as a list with membership up to equality. -/
structure DFSState where
  visited : List OwnedBoard
  current_path : List BoardMove
  board : OwnedBoard
deriving DecidableEq, Repr

/-- Embeds `DFSSolver::exec_move_sequence`. -/
def dfs_exec_move_sequence (st : DFSState) (move_sequence : MoveSequence) : DFSState :=
  match apply_move_sequence (st.board, st.current_path) move_sequence with
  | (board, path) => { st with board := board, current_path := path }

/-- Embeds `DFSSolver::undo_move_sequence`. -/
def dfs_undo_move_sequence (st : DFSState) (move_sequence : MoveSequence) : DFSState :=
  match undo_move_sequence (st.board, st.current_path) move_sequence with
  | (board, path) => { st with board := board, current_path := path }

/-- Embeds `DFSSolver::perform_iteration` together with `_call_recursive`:
the returned Bool is `is_ok` (the callers only distinguish Ok from Err).
Each recursion level increments `current_depth` twice, exactly as in the
source (`perform_iteration` passes `current_depth + 1` to `_call_recursive`,
which passes `current_depth + 1` again).  Fuel models the native call-stack
budget: exhausted fuel backtracks like the stacker red-zone MaxDepthReached
branch of `_call_recursive`. -/
def perform_iteration (order : List BoardMove) :
    Nat → DFSState → Nat → Option Nat → DFSState × Bool
  | 0, st, _, _ => (st, false)
  | fuel + 1, st, current_depth, max_depth =>
    if is_solved st.board then (st, true)
    else if st.visited.contains st.board then (st, false)
    else
      let st1 := { st with visited := st.board :: st.visited }
      if (match max_depth with
          | some md => decide (current_depth ≥ md)
          | none => false) then (st1, false)
      else
        (generate_moves order st1.board st1.current_path.getLast?).foldl
          (fun acc next_move =>
            match acc with
            | (stAcc, true) => (stAcc, true)
            | (stAcc, false) =>
              match perform_iteration order fuel (dfs_exec_move_sequence stAcc next_move)
                  (current_depth + 2) max_depth with
              | (r, true) => (r, true)
              | (r, false) => (dfs_undo_move_sequence r next_move, false))
          (st1, false)

/-- The freshly constructed solver state (`DFSSolver::new`). -/
def initial_dfs_state (board : OwnedBoard) : DFSState :=
  { visited := [], current_path := [], board := board }

/-- Embeds the `while … is_err` loop of `IncrementalDFSSolver::solve`:
on failure the depth cap grows by one and the visited set is cleared
(`self.dfs_solver.visited.clear()`); board and path persist in the state.
`outer_fuel` bounds the number of iterations (the Rust loop is unbounded). -/
def idfs_loop (order : List BoardMove) (iteration_fuel : Nat) :
    Nat → Nat → DFSState → Option (List BoardMove)
  | 0, _, _ => none
  | outer_fuel + 1, max_depth, st =>
    match perform_iteration order iteration_fuel st 0 (some max_depth) with
    | (r, true) => some r.current_path
    | (r, false) =>
      idfs_loop order iteration_fuel outer_fuel (max_depth + 1) { r with visited := [] }

/-- Embeds `IncrementalDFSSolver::solve`: `none` models both
`Err(UnsolvableBoard)` and running out of fuel. -/
def incremental_dfs_solve (order : List BoardMove) (iteration_fuel outer_fuel : Nat)
    (board : OwnedBoard) : Option (List BoardMove) :=
  if !is_solvable board then none
  else idfs_loop order iteration_fuel outer_fuel 1 (initial_dfs_state board)

/-- Embeds the spec's description of iterative-deepening DFS for comparison
(claim about `IncrementalDFSSolver`): identical to `perform_iteration`
except that a state reached again via a different path is still expanded —
no visited-state check or insertion, the only pruning is the depth bound. -/
def spec_noprune_iteration (order : List BoardMove) :
    Nat → DFSState → Nat → Option Nat → DFSState × Bool
  | 0, st, _, _ => (st, false)
  | fuel + 1, st, current_depth, max_depth =>
    if is_solved st.board then (st, true)
    else if (match max_depth with
             | some md => decide (current_depth ≥ md)
             | none => false) then (st, false)
    else
      (generate_moves order st.board st.current_path.getLast?).foldl
        (fun acc next_move =>
          match acc with
          | (stAcc, true) => (stAcc, true)
          | (stAcc, false) =>
            match spec_noprune_iteration order fuel (dfs_exec_move_sequence stAcc next_move)
                (current_depth + 2) max_depth with
            | (r, true) => (r, true)
            | (r, false) => (dfs_undo_move_sequence r next_move, false))
        (st, false)

/-- Iterative deepening over `spec_noprune_iteration` (the spec's prune-free
reading of `IncrementalDFSSolver::solve`). -/
def spec_noprune_idfs_loop (order : List BoardMove) (iteration_fuel : Nat) :
    Nat → Nat → DFSState → Option (List BoardMove)
  | 0, _, _ => none
  | outer_fuel + 1, max_depth, st =>
    match spec_noprune_iteration order iteration_fuel st 0 (some max_depth) with
    | (r, true) => some r.current_path
    | (r, false) => spec_noprune_idfs_loop order iteration_fuel outer_fuel (max_depth + 1) r

/-- The spec's prune-free iterative-deepening solve, for comparison with
`incremental_dfs_solve`. -/
def spec_noprune_incremental_solve (order : List BoardMove) (iteration_fuel outer_fuel : Nat)
    (board : OwnedBoard) : Option (List BoardMove) :=
  if !is_solvable board then none
  else spec_noprune_idfs_loop order iteration_fuel outer_fuel 1 (initial_dfs_state board)

/-- Embeds the queue loop of `BFSSolver::solve` with `bfs_iteration` inlined:
FIFO queue of (board, path) pairs, visited list, children appended at the
back; `generate_moves` is called with no previous move, exactly as in
`src/solving/algorithm/bfs.rs`. -/
def bfs_loop (order : List BoardMove) :
    Nat → List (OwnedBoard × List BoardMove) → List OwnedBoard → Option (List BoardMove)
  | 0, _, _ => none
  | fuel + 1, queue, visited =>
    match queue with
    | [] => none
    | node :: rest =>
      if is_solved node.1 then some node.2
      else if visited.contains node.1 then bfs_loop order fuel rest visited
      else
        let new_elements := (generate_moves order node.1 none).map (apply_move_sequence node)
        bfs_loop order fuel (rest ++ new_elements) (node.1 :: visited)

/-- Embeds `BFSSolver::new` + `solve`: the queue starts with the initial
board iff it is solvable; `none` models `Err(UnsolvableBoard)` and fuel
exhaustion (the Rust loop runs unboundedly). -/
def bfs_solve (order : List BoardMove) (fuel : Nat) (board : OwnedBoard) :
    Option (List BoardMove) :=
  bfs_loop order fuel (if is_solvable board then [(board, [])] else []) []

/-- The A* node cost (`SearchNode::f_cost` in
`src/solving/algorithm/heuristic/astar.rs`): heuristic plus path length. -/
def f_cost (h : HeuristicKind) (node : OwnedBoard × List BoardMove) : Nat :=
  heuristic_evaluate h node.1 + node.2.length

/-- Pops a minimum-`f_cost` node from the queue.  The source keeps a
`BinaryHeap<Reverse<SearchNode>>` whose pop order among equal-cost nodes is
unspecified; this model resolves the tie deterministically to the earliest
inserted minimal node. -/
def pop_min_node (h : HeuristicKind) :
    List (OwnedBoard × List BoardMove) →
      Option ((OwnedBoard × List BoardMove) × List (OwnedBoard × List BoardMove))
  | [] => none
  | x :: xs =>
    match pop_min_node h xs with
    | none => some (x, [])
    | some (y, ys) =>
      if f_cost h x ≤ f_cost h y then some (x, xs) else some (y, x :: ys)

/-- Embeds the pop/visit loop of `HeuristicSolver::solve` specialized to the
A* `SearchNode` (`visit_node` inlined): pop a minimum-f node, return its path
when solved, otherwise push all children (tree search, no visited pruning). -/
def astar_loop (h : HeuristicKind) (order : List BoardMove) :
    Nat → List (OwnedBoard × List BoardMove) → Option (List BoardMove)
  | 0, _ => none
  | fuel + 1, queue =>
    match pop_min_node h queue with
    | none => none
    | some (node, rest) =>
      if is_solved node.1 then some node.2
      else
        let children := (generate_moves order node.1 node.2.getLast?).map (apply_move_sequence node)
        astar_loop h order fuel (rest ++ children)

/-- Embeds `AStarSolver::solve` (via `HeuristicSolver`, which always uses
`MoveGenerator::default()`): queue seeded with the board iff solvable. -/
def astar_solve (h : HeuristicKind) (fuel : Nat) (board : OwnedBoard) :
    Option (List BoardMove) :=
  astar_loop h default_order fuel (if is_solvable board then [(board, [])] else [])

/-- Embeds `IDAStarResult` from `src/solving/algorithm/heuristic/astar.rs`. -/
inductive IDAStarResult
  | Ok
  | NotFound
  | Exceeded (cost : Nat)
deriving DecidableEq, Repr

/-- Embeds `IterativeAStarSolver::search`: bounded depth-first search that
mutates (board, path) in place with undo on backtrack, returning the state
unchanged on `Ok` (the found path stays in the state, as in the source where
the `return ok` skips the undo).  Fuel models the native call stack and is
never exhausted in the verified runs. -/
def ida_search (h : HeuristicKind) (order : List BoardMove) :
    Nat → OwnedBoard × List BoardMove → Nat → (OwnedBoard × List BoardMove) × IDAStarResult
  | 0, st, _ => (st, .NotFound)
  | fuel + 1, st, max_f_cost =>
    let fc := st.2.length + heuristic_evaluate h st.1
    if fc > max_f_cost then (st, .Exceeded fc)
    else if is_solved st.1 then (st, .Ok)
    else
      match (generate_moves order st.1 st.2.getLast?).foldl
        (fun (acc : (OwnedBoard × List BoardMove) × Option Nat × Bool) next_move =>
          match acc with
          | (stAcc, minAcc, true) => (stAcc, minAcc, true)
          | (stAcc, minAcc, false) =>
            match ida_search h order fuel (apply_move_sequence stAcc next_move) max_f_cost with
            | (s, .Ok) => (s, minAcc, true)
            | (s, .Exceeded x) =>
              let minimum := match minAcc with
                | none => some x
                | some y => if x < y then some x else some y
              (undo_move_sequence s next_move, minimum, false)
            | (s, .NotFound) => (undo_move_sequence s next_move, minAcc, false))
        (st, none, false) with
      | (r, _, true) => (r, .Ok)
      | (r, none, false) => (r, .NotFound)
      | (r, some minimum, false) => (r, .Exceeded minimum)

/-- Embeds the bound-increasing loop of `IterativeAStarSolver::solve`
(`NotFound` hits an `unreachable!` panic in the source, modelled as `none`;
`outer_fuel` bounds the unbounded Rust loop). -/
def ida_loop (h : HeuristicKind) (order : List BoardMove) (search_fuel : Nat) :
    Nat → OwnedBoard × List BoardMove → Nat → Option (List BoardMove)
  | 0, _, _ => none
  | outer_fuel + 1, st, bound =>
    match ida_search h order search_fuel st bound with
    | ((_, path), .Ok) => some path
    | (_, .NotFound) => none
    | (r, .Exceeded x) => ida_loop h order search_fuel outer_fuel r x

/-- Embeds `IterativeAStarSolver::solve` (the solver is constructed with
`MoveGenerator::default()`): fail fast when unsolvable, then iteratively
deepen the f-cost bound starting from the heuristic of the initial board. -/
def ida_solve (h : HeuristicKind) (search_fuel outer_fuel : Nat) (board : OwnedBoard) :
    Option (List BoardMove) :=
  if !is_solvable board then none
  else ida_loop h default_order search_fuel outer_fuel (board, []) (heuristic_evaluate h board)

/-- Replays a move list on a board (the spec's notion of applying a returned
solution). -/
def replay (board : OwnedBoard) (path : List BoardMove) : OwnedBoard :=
  path.foldl exec_move board

/-- Iterated depth-capped DFS, each iteration restarted from the original
board with a fresh visited set: the corrected reading of
`IncrementalDFSSolver::solve` (visited-state pruning stays active inside an
iteration; the set is cleared between iterations). -/
def pruned_restart_idfs (order : List BoardMove) (iteration_fuel : Nat) :
    Nat → Nat → OwnedBoard → Option (List BoardMove)
  | 0, _, _ => none
  | outer_fuel + 1, max_depth, board =>
    match perform_iteration order iteration_fuel (initial_dfs_state board) 0 (some max_depth) with
    | (r, true) => some r.current_path
    | (_, false) => pruned_restart_idfs order iteration_fuel outer_fuel (max_depth + 1) board

/-- Solve wrapper for `pruned_restart_idfs`, mirroring
`IncrementalDFSSolver::solve`'s solvability gate. -/
def pruned_restart_solve (order : List BoardMove) (iteration_fuel outer_fuel : Nat)
    (board : OwnedBoard) : Option (List BoardMove) :=
  if !is_solvable board then none
  else pruned_restart_idfs order iteration_fuel outer_fuel 1 board

/-- Modelled from the spec's words, for comparison with
`manhattan_distance_evaluate`: the sum over every non-blank tile of the
taxicab distance between its current position and its position in the solved
row-major layout (value v belongs at row `(v-1)/columns`, column
`(v-1)%columns`). -/
def spec_manhattan_taxicab_sum (b : OwnedBoard) : Nat :=
  (List.range b.rows).foldl (fun acc row =>
    (List.range b.columns).foldl (fun acc column =>
      let value := board_at b row column
      if value = 0 then acc
      else
        acc + (abs_diff row ((value - 1) / b.columns) +
          abs_diff column ((value - 1) % b.columns))) acc) 0

/-- Embeds `BoardCreationError` from `src/board/parsing.rs` (the
`ParseIntError` payload is dropped). -/
inductive BoardCreationError
  | ParsingError
  | InvalidHeader
  | MissingCells
  | DuplicateCells
deriving DecidableEq, Repr

/-- Result of `OwnedBoard::try_from_iter`: `panicked` models the Rust panics
reachable inside `try_from_iter` (the `chunks_mut(0)` assertion when
`columns == 0`, and the debug-mode `columns * rows - 1` u8 underflow/overflow
when `rows * columns` is 0 or exceeds 255). -/
inductive ParseOutcome
  | ok (board : OwnedBoard)
  | error (e : BoardCreationError)
  | panicked
deriving DecidableEq, Repr

/-- Embeds one body of the row-filling loop of `try_from_iter`: take the
first `columns` tokens of the line, parse them as `u8` (a value above 255 is
a `ParsingError`, standing for `str::parse::<u8>` failures), and require
exactly `columns` of them. -/
def parse_row (line : List Nat) (columns : Nat) : Except BoardCreationError (List Nat) :=
  let values := line.take columns
  if values.any (fun v => 255 < v) then .error .ParsingError
  else if values.length ≠ columns then .error .MissingCells
  else .ok values

/-- Embeds the row-filling loop of `try_from_iter` over the (already
`take rows`-limited) input lines, propagating the first error. -/
def parse_rows (columns : Nat) : List (List Nat) → Except BoardCreationError (List (List Nat))
  | [] => .ok []
  | line :: rest =>
    match parse_row line columns with
    | .error e => .error e
    | .ok values =>
      match parse_rows columns rest with
      | .error e => .error e
      | .ok vs => .ok (values :: vs)

/-- One step of the final validation loop of `try_from_iter`: once an error
is found it is kept; otherwise the count of value `i` decides between
`MissingCells` (fewer than one) and `DuplicateCells` (more than one). -/
def validate_step (cells : List Nat) (acc : Option BoardCreationError) (i : Nat) :
    Option BoardCreationError :=
  match acc with
  | some e => some e
  | none =>
    let c := cells.count i
    if c = 0 then some .MissingCells
    else if 1 < c then some .DuplicateCells
    else none

/-- Embeds the final validation loop of `try_from_iter`
(`for i in 0..=(columns * rows - 1)`). -/
def validate_cells_loop (cells : List Nat) (n : Nat) : Option BoardCreationError :=
  (List.range n).foldl (validate_step cells) none

/-- Embeds the tail of `try_from_iter` after the rows have been read: the
`row_count` check, the debug-mode `columns * rows - 1` u8 underflow/overflow
panic, and the exactly-once validation loop. -/
def build_board (rows columns : Nat) (vrows : List (List Nat)) : ParseOutcome :=
  if vrows.length ≠ rows then .error .MissingCells
  else if rows * columns = 0 ∨ 255 < rows * columns then .panicked
  else
    match validate_cells_loop vrows.flatten (rows * columns) with
    | some e => .error e
    | none => .ok { rows := rows, columns := columns, cells := vrows.flatten }

/-- Embeds `OwnedBoard::try_from_iter` from `src/board/parsing.rs` at the
token level: each input line is given as its list of numeric
whitespace-separated tokens (string lexing and `str::parse` of non-numeric
tokens are outside the model; `u8` range failures are kept). -/
def try_from_iter (lines : List (List Nat)) : ParseOutcome :=
  match lines with
  | [] => .error .InvalidHeader
  | first_line :: rest =>
    if first_line.length ≠ 2 then .error .InvalidHeader
    else if first_line.any (fun v => 255 < v) then .error .ParsingError
    else
      let rows := first_line.getD 0 0
      let columns := first_line.getD 1 0
      if columns = 0 then .panicked
      else
        match parse_rows columns (rest.take rows) with
        | .error e => .error e
        | .ok vrows => build_board rows columns vrows

/-- Embeds the per-character match of `parse_search_order` in `src/main.rs`. -/
def parse_move_char (c : Char) : Option BoardMove :=
  if c = 'U' then some .Up
  else if c = 'D' then some .Down
  else if c = 'L' then some .Left
  else if c = 'R' then some .Right
  else none

/-- ASCII uppercasing of one character (`str::to_uppercase` restricted to
the ASCII arguments the CLI receives). -/
def ascii_to_upper (c : Char) : Char :=
  if 97 ≤ c.toNat ∧ c.toNat ≤ 122 then Char.ofNat (c.toNat - 32) else c

/-- Embeds `parse_search_order` from `src/main.rs` (error strings collapse
to `none`): uppercase the input, accept "R" as `SearchOrder::Random`,
otherwise require exactly four valid, pairwise distinct direction
characters. -/
def parse_search_order (s : String) : Option SearchOrder :=
  let input := s.data.map ascii_to_upper
  if input = ['R'] then some .Random
  else if input.length ≠ 4 then none
  else
    match input.mapM parse_move_char with
    | none => none
    | some order =>
      if (List.range' 1 3).any (fun i => (order.drop i).contains (order.getD (i - 1) .Up))
      then none
      else some (.Provided order)

/-- Boards reachable from a solved board by a sequence of legal moves
(spec section 8: "boards reachable from the solved state"). -/
inductive ReachableFromSolved : OwnedBoard → Prop
  | solved (rows columns : Nat) (hr : 0 < rows) (hc : 0 < columns) :
      ReachableFromSolved (solved_board rows columns)
  | step (b : OwnedBoard) (m : BoardMove) (hb : ReachableFromSolved b)
      (hm : can_move b m = true) : ReachableFromSolved (exec_move b m)

/-- A move sequence whose moves can all be executed (first from the given
board, second from the board after the first). -/
def seq_executable (b : OwnedBoard) : MoveSequence → Prop
  | .Single m => can_move b m = true
  | .Double fst snd => can_move b fst = true ∧ can_move (exec_move b fst) snd = true

/-- The 4x4 board `1..12,13,15,14,0` (one adjacent transposition from solved). -/
def swapped_board_4x4 : OwnedBoard :=
  { rows := 4, columns := 4, cells := List.range' 1 13 ++ [15, 14, 0] }

/-- The 4x4 board `1..12,13,14,0,15` (solved board one move rotated). -/
def rotated_board_4x4 : OwnedBoard :=
  { rows := 4, columns := 4, cells := List.range' 1 14 ++ [0, 15] }

/-- The fixed 3x3 test board `1 2 3 / 0 4 6 / 7 5 8` of spec section 8. -/
def cross_strategy_board : OwnedBoard :=
  { rows := 3, columns := 3, cells := [1, 2, 3, 0, 4, 6, 7, 5, 8] }

/-- The unique 3-move solution each strategy reports for
`cross_strategy_board`. -/
def cross_strategy_path : List BoardMove :=
  [.Right, .Down, .Right]

/-- A 2x3 board on which `IncrementalDFSSolver`'s visited-state pruning
changes the reported solution (9 moves instead of the prune-free 7). -/
def idfs_pruning_board : OwnedBoard :=
  { rows := 2, columns := 3, cells := [0, 4, 2, 5, 1, 3] }

end Puzzle

namespace Puzzle

/-- C6: the solvability oracle rejects the single-transposition 4x4 board
`1..12,13,15,14,0` and accepts both the solved 4x4 board and the one-move
rotation `1..12,13,14,0,15`. -/
theorem is_solvable_concrete_verdicts :
    is_solvable swapped_board_4x4 = false ∧
    is_solvable (solved_board 4 4) = true ∧
    is_solvable rotated_board_4x4 = true :=
  ⟨rfl, rfl, rfl⟩

/-- C10: `generate_moves` with `SearchOrder::Random` reaches the `todo!`
panic (modelled as `none`) for every board and previous move, while the CLI
argument parser accepts the input "R" and produces `SearchOrder::Random`. -/
theorem random_search_order_panics :
    (∀ (board : OwnedBoard) (previous_move : Option BoardMove),
      generate_moves_checked SearchOrder.Random board previous_move = none) ∧
    parse_search_order "R" = some SearchOrder.Random :=
  ⟨fun _ _ => rfl, rfl⟩

/-- C4: on the non-square solved 2x3 board, `ManhattanDistance::evaluate`
returns 2, while the sum of taxicab distances to the solved row-major layout
described by the spec is 0 (the implementation divides by `rows` instead of
`columns` when computing a tile's goal row). -/
theorem manhattan_distance_nonsquare_bug :
    manhattan_distance_evaluate (solved_board 2 3) = 2 ∧
    spec_manhattan_taxicab_sum (solved_board 2 3) = 0 ∧
    is_solved (solved_board 2 3) = true :=
  ⟨rfl, rfl, rfl⟩

/-- C2: heuristic admissibility fails on the code: the solved 3x4 board is
solvable with the solver-produced (BFS) solution path of length L = 0, yet
`ManhattanDistance::evaluate` returns 5 > L - 0 on it. -/
theorem heuristic_admissibility_fails_nonsquare :
    bfs_solve default_order 1 (solved_board 3 4) = some [] ∧
    manhattan_distance_evaluate (solved_board 3 4) = 5 ∧
    is_solved (solved_board 3 4) = true :=
  ⟨rfl, rfl, rfl⟩

/-- C3: on the fixed 3x3 board `1 2 3 / 0 4 6 / 7 5 8`, BFS, incremental
DFS, A* and IDA* (the informed strategies with each of the three provided
heuristics) all return Ok with the same 3-move solution, and replaying it on
the initial board reaches the solved state. -/
theorem cross_strategy_agreement :
    bfs_solve default_order 100 cross_strategy_board = some cross_strategy_path ∧
    incremental_dfs_solve default_order 12 4 cross_strategy_board = some cross_strategy_path ∧
    astar_solve HeuristicKind.MD 100 cross_strategy_board = some cross_strategy_path ∧
    astar_solve HeuristicKind.LC 100 cross_strategy_board = some cross_strategy_path ∧
    astar_solve HeuristicKind.ID 100 cross_strategy_board = some cross_strategy_path ∧
    ida_solve HeuristicKind.MD 60 10 cross_strategy_board = some cross_strategy_path ∧
    ida_solve HeuristicKind.LC 60 10 cross_strategy_board = some cross_strategy_path ∧
    ida_solve HeuristicKind.ID 60 10 cross_strategy_board = some cross_strategy_path ∧
    cross_strategy_path.length = 3 ∧
    is_solved (replay cross_strategy_board cross_strategy_path) = true :=
  ⟨rfl, rfl, rfl, rfl, rfl, rfl, rfl, rfl, rfl, rfl⟩

/-- C5 (counterexample): `IncrementalDFSSolver::solve` does not behave like
prune-free iterative deepening: on the 2x3 board `0 4 2 / 5 1 3` the code
(visited-state pruning active within an iteration) returns a 9-move
solution, while depth-capped DFS without visited pruning returns a 7-move
solution. -/
theorem idfs_differs_from_noprune :
    incremental_dfs_solve default_order 20 14 idfs_pruning_board =
      some [.Down, .Right, .Up, .Left, .Down, .Right, .Up, .Right, .Down] ∧
    spec_noprune_incremental_solve default_order 20 14 idfs_pruning_board =
      some [.Right, .Down, .Left, .Up, .Right, .Right, .Down] ∧
    incremental_dfs_solve default_order 20 14 idfs_pruning_board ≠
      spec_noprune_incremental_solve default_order 20 14 idfs_pruning_board := by
  refine ⟨rfl, rfl, ?_⟩
  intro h
  have h2 : (some [BoardMove.Down, .Right, .Up, .Left, .Down, .Right, .Up, .Right, .Down] :
      Option (List BoardMove)) =
      some [BoardMove.Right, .Down, .Left, .Up, .Right, .Right, .Down] := by
    calc some [BoardMove.Down, .Right, .Up, .Left, .Down, .Right, .Up, .Right, .Down]
        = incremental_dfs_solve default_order 20 14 idfs_pruning_board := rfl
      _ = spec_noprune_incremental_solve default_order 20 14 idfs_pruning_board := h
      _ = some [BoardMove.Right, .Down, .Left, .Up, .Right, .Right, .Down] := rfl
  simp at h2

/-- C8: for every valid board the move generator emits only `Single` move
sequences when the required-move parity (the parity of the blank's taxicab
distance to the bottom-right corner) is odd, and only `Double` sequences
when it is even. -/
theorem movegen_parity_rule (order : List BoardMove) (b : OwnedBoard)
    (hb : ValidBoard b) (previous_move : Option BoardMove) :
    (required_moves_parity b = Parity.Odd →
      ∀ s ∈ generate_moves order b previous_move, ∃ m, s = MoveSequence.Single m) ∧
    (required_moves_parity b = Parity.Even →
      ∀ s ∈ generate_moves order b previous_move, ∃ fst snd, s = MoveSequence.Double fst snd) := by
  constructor
  · intro h s hs
    simp only [generate_moves, List.mem_flatMap, h] at hs
    obtain ⟨fm, _, hfm⟩ := hs
    split_ifs at hfm with h1 h2 h3
    · simp at hfm
    · simp at hfm
    · simp at hfm
      exact ⟨fm, hfm⟩
    · simp at h3
  · intro h s hs
    simp only [generate_moves, List.mem_flatMap, h] at hs
    obtain ⟨fm, _, hfm⟩ := hs
    split_ifs at hfm with h1 h2 h3
    · simp at hfm
    · simp at hfm
    · simp at h3
    · simp only [List.mem_flatMap] at hfm
      obtain ⟨sm, _, hsm⟩ := hfm
      split_ifs at hsm with h4 h5
      · simp at hsm
      · simp at hsm
      · simp at hsm
        exact ⟨fm, sm, hsm⟩

theorem parse_rows_ok_lengths (columns : Nat) :
    ∀ (lines vs : List (List Nat)), parse_rows columns lines = .ok vs →
      vs.length = lines.length ∧ ∀ v ∈ vs, v.length = columns := by
  intro lines
  induction lines with
  | nil =>
    intro vs h
    simp only [parse_rows] at h
    cases h
    simp
  | cons line rest ih =>
    intro vs h
    simp only [parse_rows] at h
    cases hrow : parse_row line columns with
    | error e => rw [hrow] at h; cases h
    | ok values =>
      rw [hrow] at h
      cases hrest : parse_rows columns rest with
      | error e => rw [hrest] at h; cases h
      | ok vs' =>
        rw [hrest] at h
        cases h
        obtain ⟨hlen, hall⟩ := ih vs' hrest
        have hval : values.length = columns := by
          simp only [parse_row] at hrow
          split_ifs at hrow with ha hb
          cases hrow
          exact not_ne_iff.mp hb
        constructor
        · simp [hlen]
        · intro v hv
          rcases List.mem_cons.mp hv with h1 | h1
          · rw [h1]; exact hval
          · exact hall v h1

theorem flatten_length_of_uniform (columns : Nat) :
    ∀ (vs : List (List Nat)), (∀ v ∈ vs, v.length = columns) →
      vs.flatten.length = vs.length * columns := by
  intro vs
  induction vs with
  | nil => intro _; simp
  | cons v rest ih =>
    intro hall
    have hv : v.length = columns := hall v (List.mem_cons_self v rest)
    have hr := ih fun w hw => hall w (List.mem_cons_of_mem v hw)
    simp [List.flatten_cons, hv, hr, Nat.succ_mul, Nat.add_comm]

theorem validate_step_none_eq (cells : List Nat) (j : Nat) :
    validate_step cells none j =
      (if cells.count j = 0 then some BoardCreationError.MissingCells
       else if 1 < cells.count j then some BoardCreationError.DuplicateCells
       else none) := rfl

theorem validate_fold_some (cells : List Nat) (e : BoardCreationError) :
    ∀ (L : List Nat), L.foldl (validate_step cells) (some e) = some e := by
  intro L
  induction L with
  | nil => rfl
  | cons i rest ih => exact ih

theorem validate_fold_none (cells : List Nat) :
    ∀ (L : List Nat), L.foldl (validate_step cells) none = none →
      ∀ i ∈ L, cells.count i = 1 := by
  intro L
  induction L with
  | nil => intro _ i hi; cases hi
  | cons j rest ih =>
    intro hfold i hi
    rw [List.foldl_cons, validate_step_none_eq] at hfold
    by_cases hc0 : cells.count j = 0
    · rw [if_pos hc0, validate_fold_some] at hfold
      cases hfold
    · by_cases hc1 : 1 < cells.count j
      · rw [if_neg hc0, if_pos hc1, validate_fold_some] at hfold
        cases hfold
      · have hj : cells.count j = 1 := by omega
        rw [if_neg hc0, if_neg hc1] at hfold
        rcases List.mem_cons.mp hi with h1 | h1
        · rw [h1]; exact hj
        · exact ih hfold i h1

theorem validate_cells_loop_none (cells : List Nat) (n : Nat)
    (h : validate_cells_loop cells n = none) :
    ∀ i < n, cells.count i = 1 := by
  intro i hi
  exact validate_fold_none cells (List.range n) h i (List.mem_range.mpr hi)

theorem validate_fold_error (cells : List Nat) :
    ∀ (L : List Nat) (e : BoardCreationError),
      L.foldl (validate_step cells) none = some e →
      e = BoardCreationError.MissingCells ∨ e = BoardCreationError.DuplicateCells := by
  intro L
  induction L with
  | nil => intro e h; cases h
  | cons j rest ih =>
    intro e hfold
    rw [List.foldl_cons, validate_step_none_eq] at hfold
    by_cases hc0 : cells.count j = 0
    · rw [if_pos hc0, validate_fold_some] at hfold
      cases hfold
      exact Or.inl rfl
    · by_cases hc1 : 1 < cells.count j
      · rw [if_neg hc0, if_pos hc1, validate_fold_some] at hfold
        cases hfold
        exact Or.inr rfl
      · rw [if_neg hc0, if_neg hc1] at hfold
        exact ih e hfold

theorem validate_cells_loop_bad (cells : List Nat) (n : Nat)
    (hbad : ∃ i, i < n ∧ cells.count i ≠ 1) :
    ∃ e, validate_cells_loop cells n = some e ∧
      (e = BoardCreationError.MissingCells ∨ e = BoardCreationError.DuplicateCells) := by
  cases hres : validate_cells_loop cells n with
  | none =>
    obtain ⟨i, hi, hne⟩ := hbad
    exact absurd (validate_cells_loop_none cells n hres i hi) hne
  | some e =>
    exact ⟨e, rfl, validate_fold_error cells (List.range n) e hres⟩

theorem build_board_ok (rows columns : Nat) (vrows : List (List Nat)) (b : OwnedBoard)
    (hall : ∀ v ∈ vrows, v.length = columns)
    (hok : build_board rows columns vrows = ParseOutcome.ok b) :
    b.cells.Perm (List.range (b.rows * b.columns)) ∧ b.cells.count 0 = 1 := by
  simp only [build_board] at hok
  split_ifs at hok with h1 h2
  cases hval : validate_cells_loop vrows.flatten (rows * columns) with
  | some e =>
    simp [hval] at hok
  | none =>
      simp only [hval, ParseOutcome.ok.injEq] at hok
      cases hok
      have hlenvs : vrows.length = rows := not_ne_iff.mp h1
      have hflat : vrows.flatten.length = rows * columns := by
        rw [flatten_length_of_uniform columns vrows hall, hlenvs]
      have hcounts := validate_cells_loop_none _ _ hval
      have hn0 : 0 < rows * columns := by
        rcases Nat.eq_zero_or_pos (rows * columns) with hz | hp
        · exact absurd (Or.inl hz) h2
        · exact hp
      have hsub : List.Subperm (List.range (rows * columns)) vrows.flatten := by
        refine List.subperm_ext_iff.mpr ?_
        intro a ha
        rw [List.count_eq_one_of_mem (List.nodup_range _) ha,
          hcounts a (List.mem_range.mp ha)]
      exact ⟨(hsub.perm_of_length_le (by simp [hflat])).symm, hcounts 0 hn0⟩

/-- C9: board parsing establishes the permutation invariant: whenever
`try_from_iter` returns Ok, the cell buffer is a permutation of
`[0, rows*columns)` — in particular it has exactly one blank — and whenever
the grid is read but some value is missing or duplicated, the validation
loop reports `MissingCells` or `DuplicateCells`. -/
theorem try_from_iter_exactly_once (lines : List (List Nat)) :
    (∀ b, try_from_iter lines = ParseOutcome.ok b →
      b.cells.Perm (List.range (b.rows * b.columns)) ∧ b.cells.count 0 = 1) ∧
    (∀ cells n, (∃ i, i < n ∧ cells.count i ≠ 1) →
      ∃ e, validate_cells_loop cells n = some e ∧
        (e = BoardCreationError.MissingCells ∨ e = BoardCreationError.DuplicateCells)) := by
  refine ⟨?_, fun cells n hbad => validate_cells_loop_bad cells n hbad⟩
  intro b hok
  cases lines with
  | nil => simp [try_from_iter] at hok
  | cons first_line rest =>
    simp only [try_from_iter] at hok
    split_ifs at hok with h1 h2 h3
    cases hrows : parse_rows (first_line.getD 1 0) (rest.take (first_line.getD 0 0)) with
    | error e =>
      simp only [hrows] at hok
      cases hok
    | ok vrows =>
      simp only [hrows] at hok
      exact build_board_ok _ _ _ _ (parse_rows_ok_lengths _ _ _ hrows).2 hok

/-- C9 witness: a concrete successful parse (board `2 2 / 1 2 / 3 0`) whose
cells form a permutation with a single blank, and a concrete bad cell
multiset rejected by the validation loop. -/
theorem try_from_iter_exactly_once_witness :
    ((⟨2, 2, [1, 2, 3, 0]⟩ : OwnedBoard).cells.Perm
        (List.range ((⟨2, 2, [1, 2, 3, 0]⟩ : OwnedBoard).rows *
          (⟨2, 2, [1, 2, 3, 0]⟩ : OwnedBoard).columns)) ∧
      (⟨2, 2, [1, 2, 3, 0]⟩ : OwnedBoard).cells.count 0 = 1) ∧
    (∃ e, validate_cells_loop [0, 0] 2 = some e ∧
      (e = BoardCreationError.MissingCells ∨ e = BoardCreationError.DuplicateCells)) :=
  ⟨(try_from_iter_exactly_once [[2, 2], [1, 2], [3, 0]]).1 ⟨2, 2, [1, 2, 3, 0]⟩ rfl,
   (try_from_iter_exactly_once [[2, 2], [1, 2], [3, 0]]).2 [0, 0] 2 ⟨1, by decide, by decide⟩⟩

theorem pos_flatten_div (r c cols : Nat) (h : c < cols) : (r * cols + c) / cols = r := by
  have h0 : 0 < cols := Nat.pos_of_ne_zero (by omega)
  rw [Nat.mul_comm r cols, Nat.mul_add_div h0, Nat.div_eq_of_lt h]
  omega

theorem pos_flatten_mod (r c cols : Nat) (h : c < cols) : (r * cols + c) % cols = c := by
  rw [Nat.mul_comm r cols, Nat.mul_add_mod, Nat.mod_eq_of_lt h]

theorem flatten_lt_of_lt (a c rows cols : Nat) (ha : a < rows) (hc : c < cols) :
    a * cols + c < rows * cols := by
  have h1 : a * cols + c < (a + 1) * cols := by
    rw [Nat.succ_mul]
    omega
  have h2 : (a + 1) * cols ≤ rows * cols := Nat.mul_le_mul_right cols ha
  omega

theorem flatten_inj (cols a b c d : Nat) (hc : c < cols) (hd : d < cols)
    (h : a * cols + c = b * cols + d) : a = b ∧ c = d := by
  constructor
  · rw [← pos_flatten_div a c cols hc, h, pos_flatten_div b d cols hd]
  · rw [← pos_flatten_mod a c cols hc, h, pos_flatten_mod b d cols hd]

theorem ValidBoard.cells_length {b : OwnedBoard} (hv : ValidBoard b) :
    b.cells.length = b.rows * b.columns :=
  hv.2.2.length_eq.trans (List.length_range _)

theorem ValidBoard.cells_nodup {b : OwnedBoard} (hv : ValidBoard b) : b.cells.Nodup :=
  hv.2.2.nodup_iff.mpr (List.nodup_range _)

theorem ValidBoard.size_pos {b : OwnedBoard} (hv : ValidBoard b) : 0 < b.rows * b.columns :=
  Nat.mul_pos hv.1 hv.2.1

theorem ValidBoard.zero_mem {b : OwnedBoard} (hv : ValidBoard b) : (0 : Nat) ∈ b.cells :=
  hv.2.2.mem_iff.mpr (List.mem_range.mpr hv.size_pos)

theorem empty_cell_index_lt {b : OwnedBoard} (hv : ValidBoard b) :
    empty_cell_index b < b.cells.length :=
  List.indexOf_lt_length.mpr hv.zero_mem

theorem getD_empty_cell_index {b : OwnedBoard} (hv : ValidBoard b) :
    b.cells.getD (empty_cell_index b) 0 = 0 := by
  rw [List.getD_eq_getElem _ _ (empty_cell_index_lt hv)]
  exact List.getElem_indexOf (empty_cell_index_lt hv)

theorem flatten_empty_pos (b : OwnedBoard) :
    flatten_index b (empty_cell_pos b).1 (empty_cell_pos b).2 = empty_cell_index b := by
  simp only [flatten_index, empty_cell_pos]
  rw [Nat.mul_comm]
  exact Nat.div_add_mod _ _

theorem empty_pos_col_lt {b : OwnedBoard} (hv : ValidBoard b) :
    (empty_cell_pos b).2 < b.columns :=
  Nat.mod_lt _ hv.2.1

theorem empty_pos_row_lt {b : OwnedBoard} (hv : ValidBoard b) :
    (empty_cell_pos b).1 < b.rows := by
  have h := empty_cell_index_lt hv
  rw [hv.cells_length] at h
  exact Nat.div_lt_of_lt_mul (by rw [Nat.mul_comm]; exact h)

theorem empty_cell_index_decomp (b : OwnedBoard) :
    empty_cell_index b = (empty_cell_pos b).1 * b.columns + (empty_cell_pos b).2 :=
  (flatten_empty_pos b).symm

theorem indexOf_zero_eq (l : List Nat) (hnd : l.Nodup) (t : Nat) (ht : t < l.length)
    (h0 : l.getD t 0 = 0) : l.indexOf 0 = t := by
  rw [List.getD_eq_getElem _ _ ht] at h0
  have hmem : (0 : Nat) ∈ l := h0 ▸ List.getElem_mem ht
  have hlt : l.indexOf 0 < l.length := List.indexOf_lt_length.mpr hmem
  have hval : l[l.indexOf 0] = 0 := List.getElem_indexOf hlt
  exact (List.Nodup.getElem_inj_iff hnd).mp (hval.trans h0.symm)

theorem swap_head_perm :
    ∀ (t : List Nat) (k : Nat) (v : Nat), k < t.length →
      List.Perm (t.getD k 0 :: t.set k v) (v :: t) := by
  intro t
  induction t with
  | nil => intro k v hk; cases hk
  | cons x s ih =>
    intro k v hk
    cases k with
    | zero =>
      simp only [List.getD_cons_zero, List.set_cons_zero]
      exact List.Perm.swap v x s
    | succ k =>
      simp only [List.getD_cons_succ, List.set_cons_succ]
      have h1 : List.Perm (s.getD k 0 :: x :: s.set k v) (x :: s.getD k 0 :: s.set k v) :=
        List.Perm.swap x (s.getD k 0) (s.set k v)
      have h2 : List.Perm (x :: s.getD k 0 :: s.set k v) (x :: v :: s) :=
        (ih k v (Nat.lt_of_succ_lt_succ hk)).cons x
      have h3 : List.Perm (x :: v :: s) (v :: x :: s) := List.Perm.swap v x s
      exact (h1.trans h2).trans h3

theorem list_swap_perm :
    ∀ (l : List Nat) (i j : Nat), i < l.length → j < l.length →
      List.Perm (list_swap l i j) l := by
  intro l
  induction l with
  | nil => intro i j hi; cases hi
  | cons a t ih =>
    intro i j hi hj
    cases i with
    | zero =>
      cases j with
      | zero =>
        simp [list_swap]
      | succ m =>
        simp only [list_swap, List.getD_cons_zero, List.getD_cons_succ,
          List.set_cons_succ, List.set_cons_zero]
        exact swap_head_perm t m a (Nat.lt_of_succ_lt_succ hj)
    | succ i =>
      cases j with
      | zero =>
        simp only [list_swap, List.getD_cons_zero, List.getD_cons_succ,
          List.set_cons_succ, List.set_cons_zero]
        exact swap_head_perm t i a (Nat.lt_of_succ_lt_succ hi)
      | succ m =>
        simp only [list_swap, List.getD_cons_succ, List.set_cons_succ]
        exact (ih i m (Nat.lt_of_succ_lt_succ hi) (Nat.lt_of_succ_lt_succ hj)).cons a

theorem list_swap_length (l : List Nat) (i j : Nat) :
    (list_swap l i j).length = l.length := by
  simp [list_swap]

theorem getD_list_swap_left (l : List Nat) (i j : Nat) (hi : i < l.length) :
    (list_swap l i j).getD i 0 = l.getD j 0 := by
  rw [List.getD_eq_getElem _ _ (by simpa [list_swap_length] using hi)]
  simp [list_swap]

theorem getD_list_swap_right (l : List Nat) (i j : Nat) (hj : j < l.length) (hne : i ≠ j) :
    (list_swap l i j).getD j 0 = l.getD i 0 := by
  rw [List.getD_eq_getElem _ _ (by simpa [list_swap_length] using hj)]
  simp only [list_swap]
  rw [List.getElem_set_ne hne (by simpa using hj), List.getElem_set_self]

theorem getD_list_swap_other (l : List Nat) (i j k : Nat) (hki : k ≠ i) (hkj : k ≠ j) :
    (list_swap l i j).getD k 0 = l.getD k 0 := by
  by_cases hk : k < l.length
  · rw [List.getD_eq_getElem _ _ (by simpa [list_swap_length] using hk),
      List.getD_eq_getElem _ _ hk]
    simp only [list_swap]
    rw [List.getElem_set_ne (Ne.symm hki) (by simpa using hk),
      List.getElem_set_ne (Ne.symm hkj) (by simpa using hk)]
  · rw [List.getD_eq_default _ _ (by simpa [list_swap_length] using Nat.le_of_not_lt hk),
      List.getD_eq_default _ _ (Nat.le_of_not_lt hk)]

theorem exec_move_def (b : OwnedBoard) (m : BoardMove) :
    exec_move b m =
      { b with cells := ((b.cells.set (move_target_index b m) 0).set (empty_cell_index b)
          (b.cells.getD (move_target_index b m) 0)) } := by
  cases m <;>
    simp only [exec_move, move_target_index, move_target_pos, flatten_empty_pos]

theorem exec_move_cells_swap {b : OwnedBoard} (m : BoardMove) (hv : ValidBoard b) :
    exec_move b m =
      { b with cells := list_swap b.cells (empty_cell_index b) (move_target_index b m) } := by
  rw [exec_move_def]
  simp only [list_swap, getD_empty_cell_index hv]

theorem move_target_spec {b : OwnedBoard} {m : BoardMove} (hv : ValidBoard b)
    (hm : can_move b m = true) :
    move_target_index b m < b.cells.length ∧
    move_target_index b m ≠ empty_cell_index b ∧
    (move_target_pos b m).2 < b.columns ∧
    move_target_index b m = (move_target_pos b m).1 * b.columns + (move_target_pos b m).2 ∧
    (move_target_pos b m).1 < b.rows := by
  have hc := empty_pos_col_lt hv
  have hr := empty_pos_row_lt hv
  have hdec := empty_cell_index_decomp b
  have hlen := hv.cells_length
  cases m with
  | Up =>
    have h0 : 0 < (empty_cell_pos b).1 := by simpa [can_move] using hm
    have hpos : move_target_pos b BoardMove.Up =
        ((empty_cell_pos b).1 - 1, (empty_cell_pos b).2) := rfl
    have hidx : move_target_index b BoardMove.Up =
        ((empty_cell_pos b).1 - 1) * b.columns + (empty_cell_pos b).2 := rfl
    refine ⟨?_, ?_, hc, hidx, by simp only [hpos]; omega⟩
    · rw [hidx, hlen]
      exact flatten_lt_of_lt _ _ _ _ (by omega) hc
    · rw [hidx, hdec]
      intro he
      have := (flatten_inj b.columns _ _ _ _ hc hc he).1
      omega
  | Down =>
    have h0 : (empty_cell_pos b).1 < b.rows - 1 := by simpa [can_move] using hm
    have hpos : move_target_pos b BoardMove.Down =
        ((empty_cell_pos b).1 + 1, (empty_cell_pos b).2) := rfl
    have hidx : move_target_index b BoardMove.Down =
        ((empty_cell_pos b).1 + 1) * b.columns + (empty_cell_pos b).2 := rfl
    refine ⟨?_, ?_, hc, hidx, by simp only [hpos]; omega⟩
    · rw [hidx, hlen]
      exact flatten_lt_of_lt _ _ _ _ (by omega) hc
    · rw [hidx, hdec]
      intro he
      have := (flatten_inj b.columns _ _ _ _ hc hc he).1
      omega
  | Left =>
    have h0 : 0 < (empty_cell_pos b).2 := by simpa [can_move] using hm
    have hpos : move_target_pos b BoardMove.Left =
        ((empty_cell_pos b).1, (empty_cell_pos b).2 - 1) := rfl
    have hidx : move_target_index b BoardMove.Left =
        (empty_cell_pos b).1 * b.columns + ((empty_cell_pos b).2 - 1) := rfl
    refine ⟨?_, ?_, by simp only [hpos]; omega, hidx, by simp only [hpos]; omega⟩
    · rw [hidx, hlen]
      exact flatten_lt_of_lt _ _ _ _ hr (by omega)
    · rw [hidx, hdec]
      intro he
      have := (flatten_inj b.columns _ _ _ _ (by omega) hc he).2
      omega
  | Right =>
    have h0 : (empty_cell_pos b).2 < b.columns - 1 := by simpa [can_move] using hm
    have hpos : move_target_pos b BoardMove.Right =
        ((empty_cell_pos b).1, (empty_cell_pos b).2 + 1) := rfl
    have hidx : move_target_index b BoardMove.Right =
        (empty_cell_pos b).1 * b.columns + ((empty_cell_pos b).2 + 1) := rfl
    refine ⟨?_, ?_, by simp only [hpos]; omega, hidx, by simp only [hpos]; omega⟩
    · rw [hidx, hlen]
      exact flatten_lt_of_lt _ _ _ _ hr (by omega)
    · rw [hidx, hdec]
      intro he
      have := (flatten_inj b.columns _ _ _ _ (by omega) hc he).2
      omega

theorem exec_move_rows (b : OwnedBoard) (m : BoardMove) :
    (exec_move b m).rows = b.rows := rfl

theorem exec_move_columns (b : OwnedBoard) (m : BoardMove) :
    (exec_move b m).columns = b.columns := rfl

theorem exec_move_valid {b : OwnedBoard} {m : BoardMove} (hv : ValidBoard b)
    (hm : can_move b m = true) : ValidBoard (exec_move b m) := by
  rw [exec_move_cells_swap m hv]
  exact ⟨hv.1, hv.2.1,
    (list_swap_perm b.cells _ _ (empty_cell_index_lt hv) (move_target_spec hv hm).1).trans hv.2.2⟩

theorem empty_cell_index_exec {b : OwnedBoard} {m : BoardMove} (hv : ValidBoard b)
    (hm : can_move b m = true) :
    empty_cell_index (exec_move b m) = move_target_index b m := by
  obtain ⟨ht, hne, _, _, _⟩ := move_target_spec hv hm
  rw [exec_move_cells_swap m hv]
  simp only [empty_cell_index]
  exact indexOf_zero_eq _
    (((list_swap_perm b.cells _ _ (empty_cell_index_lt hv) ht).nodup_iff).mpr hv.cells_nodup)
    _ (by rw [list_swap_length]; exact ht)
    (by rw [getD_list_swap_right _ _ _ ht (Ne.symm hne)]; exact getD_empty_cell_index hv)

theorem empty_cell_pos_exec {b : OwnedBoard} {m : BoardMove} (hv : ValidBoard b)
    (hm : can_move b m = true) :
    empty_cell_pos (exec_move b m) = move_target_pos b m := by
  obtain ⟨_, _, hcol, hflat, _⟩ := move_target_spec hv hm
  simp only [empty_cell_pos, empty_cell_index_exec hv hm, exec_move_columns]
  rw [hflat, pos_flatten_div _ _ _ hcol, pos_flatten_mod _ _ _ hcol]

theorem can_move_opposite {b : OwnedBoard} {m : BoardMove} (hv : ValidBoard b)
    (hm : can_move b m = true) : can_move (exec_move b m) m.opposite = true := by
  have hc := empty_pos_col_lt hv
  have hr := empty_pos_row_lt hv
  have hpos := empty_cell_pos_exec hv hm
  cases m with
  | Up =>
    have h0 : 0 < (empty_cell_pos b).1 := by simpa [can_move] using hm
    simp only [BoardMove.opposite, can_move, hpos, move_target_pos, exec_move_rows]
    exact decide_eq_true (by omega)
  | Down =>
    have h0 : (empty_cell_pos b).1 < b.rows - 1 := by simpa [can_move] using hm
    simp only [BoardMove.opposite, can_move, hpos, move_target_pos]
    exact decide_eq_true (by omega)
  | Left =>
    have h0 : 0 < (empty_cell_pos b).2 := by simpa [can_move] using hm
    simp only [BoardMove.opposite, can_move, hpos, move_target_pos, exec_move_columns]
    exact decide_eq_true (by omega)
  | Right =>
    have h0 : (empty_cell_pos b).2 < b.columns - 1 := by simpa [can_move] using hm
    simp only [BoardMove.opposite, can_move, hpos, move_target_pos]
    exact decide_eq_true (by omega)

theorem move_target_opposite {b : OwnedBoard} {m : BoardMove} (hv : ValidBoard b)
    (hm : can_move b m = true) :
    move_target_index (exec_move b m) m.opposite = empty_cell_index b := by
  have hpos := empty_cell_pos_exec hv hm
  have hdec := empty_cell_index_decomp b
  cases m with
  | Up =>
    have h0 : 0 < (empty_cell_pos b).1 := by simpa [can_move] using hm
    simp only [BoardMove.opposite, move_target_index, move_target_pos, hpos,
      flatten_index, exec_move_columns]
    rw [hdec]
    congr 1
    congr 1
    omega
  | Down =>
    simp only [BoardMove.opposite, move_target_index, move_target_pos, hpos,
      flatten_index, exec_move_columns]
    rw [hdec]
    simp
  | Left =>
    have h0 : 0 < (empty_cell_pos b).2 := by simpa [can_move] using hm
    simp only [BoardMove.opposite, move_target_index, move_target_pos, hpos,
      flatten_index, exec_move_columns]
    rw [hdec]
    congr 1
    omega
  | Right =>
    simp only [BoardMove.opposite, move_target_index, move_target_pos, hpos,
      flatten_index, exec_move_columns]
    rw [hdec]
    simp

theorem list_swap_swap (l : List Nat) (i j : Nat) (hi : i < l.length) (hj : j < l.length) :
    list_swap (list_swap l i j) j i = l := by
  apply List.ext_getElem (by simp [list_swap_length])
  intro k hk1 hk2
  rw [← List.getD_eq_getElem ((list_swap (list_swap l i j) j i)) 0 hk1,
    ← List.getD_eq_getElem l 0 hk2]
  by_cases hkj : k = j
  · rw [hkj]
    rw [getD_list_swap_left _ _ _ (by simpa [list_swap_length] using hj),
      getD_list_swap_left _ _ _ hi]
  · by_cases hki : k = i
    · rw [hki]
      rw [getD_list_swap_right _ _ _ (by simpa [list_swap_length] using hi)
          (fun he => hkj (hki.trans he.symm)),
        getD_list_swap_right _ _ _ hj (fun he => hkj (hki.trans he))]
    · rw [getD_list_swap_other _ _ _ _ hkj hki, getD_list_swap_other _ _ _ _ hki hkj]

/-- C7: move round-trip: on every valid board where move m is legal,
executing m and then its opposite restores the original board (same
dimensions and identical cell contents). -/
theorem exec_move_roundtrip {b : OwnedBoard} {m : BoardMove} (hv : ValidBoard b)
    (hm : can_move b m = true) : exec_move (exec_move b m) m.opposite = b := by
  obtain ⟨ht, hne, _, _, _⟩ := move_target_spec hv hm
  have hv' := exec_move_valid hv hm
  have hcells : (exec_move b m).cells =
      list_swap b.cells (empty_cell_index b) (move_target_index b m) := by
    rw [exec_move_cells_swap m hv]
  have hfinal : exec_move (exec_move b m) m.opposite =
      OwnedBoard.mk b.rows b.columns
        (list_swap (list_swap b.cells (empty_cell_index b) (move_target_index b m))
          (move_target_index b m) (empty_cell_index b)) := by
    rw [exec_move_cells_swap m.opposite hv', empty_cell_index_exec hv hm,
      move_target_opposite hv hm, hcells]
    rfl
  rw [hfinal, list_swap_swap b.cells _ _ (empty_cell_index_lt hv) ht]


/-- C7 witness: the round trip at the concrete 3x3 board of spec section 8
with the Up move. -/
theorem exec_move_roundtrip_witness :
    ValidBoard cross_strategy_board ∧
    can_move cross_strategy_board BoardMove.Up = true ∧
    exec_move (exec_move cross_strategy_board BoardMove.Up) BoardMove.Up.opposite =
      cross_strategy_board :=
  ⟨by decide, by decide, exec_move_roundtrip (by decide) (by decide)⟩

theorem is_inside_iff_can_move {b : OwnedBoard} (hv : ValidBoard b) (m : BoardMove) :
    is_inside_board (position_after_move
      (((empty_cell_pos b).1 : Int), ((empty_cell_pos b).2 : Int)) m) b = true ↔
    can_move b m = true := by
  have hc := empty_pos_col_lt hv
  have hr := empty_pos_row_lt hv
  cases m with
  | Up =>
    have h1 : position_after_move
        (((empty_cell_pos b).1 : Int), ((empty_cell_pos b).2 : Int)) BoardMove.Up =
        (((empty_cell_pos b).1 : Int) - 1, ((empty_cell_pos b).2 : Int)) := rfl
    have h2 : can_move b BoardMove.Up = decide ((empty_cell_pos b).1 > 0) := rfl
    rw [h1, h2]
    simp only [is_inside_board, Bool.and_eq_true, decide_eq_true_eq]
    omega
  | Down =>
    have h1 : position_after_move
        (((empty_cell_pos b).1 : Int), ((empty_cell_pos b).2 : Int)) BoardMove.Down =
        (((empty_cell_pos b).1 : Int) + 1, ((empty_cell_pos b).2 : Int)) := rfl
    have h2 : can_move b BoardMove.Down = decide ((empty_cell_pos b).1 < b.rows - 1) := rfl
    rw [h1, h2]
    simp only [is_inside_board, Bool.and_eq_true, decide_eq_true_eq]
    omega
  | Left =>
    have h1 : position_after_move
        (((empty_cell_pos b).1 : Int), ((empty_cell_pos b).2 : Int)) BoardMove.Left =
        (((empty_cell_pos b).1 : Int), ((empty_cell_pos b).2 : Int) - 1) := rfl
    have h2 : can_move b BoardMove.Left = decide ((empty_cell_pos b).2 > 0) := rfl
    rw [h1, h2]
    simp only [is_inside_board, Bool.and_eq_true, decide_eq_true_eq]
    omega
  | Right =>
    have h1 : position_after_move
        (((empty_cell_pos b).1 : Int), ((empty_cell_pos b).2 : Int)) BoardMove.Right =
        (((empty_cell_pos b).1 : Int), ((empty_cell_pos b).2 : Int) + 1) := rfl
    have h2 : can_move b BoardMove.Right = decide ((empty_cell_pos b).2 < b.columns - 1) := rfl
    rw [h1, h2]
    simp only [is_inside_board, Bool.and_eq_true, decide_eq_true_eq]
    omega

theorem is_inside_same_dims (p : Int × Int) {b b' : OwnedBoard}
    (h1 : b'.rows = b.rows) (h2 : b'.columns = b.columns) :
    is_inside_board p b' = is_inside_board p b := by
  simp [is_inside_board, h1, h2]

theorem empty_pos_int_exec {b : OwnedBoard} {m : BoardMove} (hv : ValidBoard b)
    (hm : can_move b m = true) :
    (((empty_cell_pos (exec_move b m)).1 : Int), ((empty_cell_pos (exec_move b m)).2 : Int)) =
      position_after_move (((empty_cell_pos b).1 : Int), ((empty_cell_pos b).2 : Int)) m := by
  rw [empty_cell_pos_exec hv hm]
  cases m with
  | Up =>
    have h0 : 0 < (empty_cell_pos b).1 := by simpa [can_move] using hm
    show ((((empty_cell_pos b).1 - 1 : Nat) : Int), (((empty_cell_pos b).2 : Nat) : Int)) =
      (((empty_cell_pos b).1 : Int) - 1, ((empty_cell_pos b).2 : Int))
    rw [Prod.mk.injEq]
    exact ⟨by omega, rfl⟩
  | Down =>
    show ((((empty_cell_pos b).1 + 1 : Nat) : Int), (((empty_cell_pos b).2 : Nat) : Int)) =
      (((empty_cell_pos b).1 : Int) + 1, ((empty_cell_pos b).2 : Int))
    rw [Prod.mk.injEq]
    exact ⟨by omega, rfl⟩
  | Left =>
    have h0 : 0 < (empty_cell_pos b).2 := by simpa [can_move] using hm
    show ((((empty_cell_pos b).1 : Nat) : Int), (((empty_cell_pos b).2 - 1 : Nat) : Int)) =
      (((empty_cell_pos b).1 : Int), ((empty_cell_pos b).2 : Int) - 1)
    rw [Prod.mk.injEq]
    exact ⟨rfl, by omega⟩
  | Right =>
    show ((((empty_cell_pos b).1 : Nat) : Int), (((empty_cell_pos b).2 + 1 : Nat) : Int)) =
      (((empty_cell_pos b).1 : Int), ((empty_cell_pos b).2 : Int) + 1)
    rw [Prod.mk.injEq]
    exact ⟨rfl, by omega⟩

theorem generate_moves_executable (order : List BoardMove) {b : OwnedBoard}
    (hv : ValidBoard b) (previous_move : Option BoardMove) :
    ∀ s ∈ generate_moves order b previous_move, seq_executable b s := by
  intro s hs
  simp only [generate_moves, List.mem_flatMap] at hs
  obtain ⟨fm, _, hfm⟩ := hs
  split_ifs at hfm with h1 h2 h3
  · simp at hfm
  · simp at hfm
  · simp at hfm
    rw [hfm]
    have hin : is_inside_board (position_after_move
        (((empty_cell_pos b).1 : Int), ((empty_cell_pos b).2 : Int)) fm) b = true := by
      simpa using h1
    exact (is_inside_iff_can_move hv fm).mp hin
  · simp only [List.mem_flatMap] at hfm
    obtain ⟨sm, _, hsm⟩ := hfm
    split_ifs at hsm with h4 h5
    · simp at hsm
    · simp at hsm
    · simp at hsm
      rw [hsm]
      have hin1 : is_inside_board (position_after_move
          (((empty_cell_pos b).1 : Int), ((empty_cell_pos b).2 : Int)) fm) b = true := by
        simpa using h1
      have hc1 : can_move b fm = true := (is_inside_iff_can_move hv fm).mp hin1
      refine ⟨hc1, ?_⟩
      have hin2 : is_inside_board (position_after_move (position_after_move
          (((empty_cell_pos b).1 : Int), ((empty_cell_pos b).2 : Int)) fm) sm) b = true := by
        simpa using h4
      rw [← empty_pos_int_exec hv hc1] at hin2
      have hin2' : is_inside_board (position_after_move
          (((empty_cell_pos (exec_move b fm)).1 : Int),
            ((empty_cell_pos (exec_move b fm)).2 : Int)) sm) (exec_move b fm) = true := by
        rw [is_inside_same_dims _ (exec_move_rows b fm) (exec_move_columns b fm)]
        exact hin2
      exact (is_inside_iff_can_move (exec_move_valid hv hc1) sm).mp hin2'

theorem dfs_exec_board_valid (st : DFSState) (s : MoveSequence) (hv : ValidBoard st.board)
    (hx : seq_executable st.board s) : ValidBoard (dfs_exec_move_sequence st s).board := by
  cases s with
  | Single m => exact exec_move_valid hv hx
  | Double fst snd => exact exec_move_valid (exec_move_valid hv hx.1) hx.2

theorem dfs_exec_board_eq (st : DFSState) (s : MoveSequence) :
    (dfs_exec_move_sequence st s).board = (match s with
      | .Single m => exec_move st.board m
      | .Double fst snd => exec_move (exec_move st.board fst) snd) := by
  cases s <;> rfl

theorem dfs_exec_path_eq (st : DFSState) (s : MoveSequence) :
    (dfs_exec_move_sequence st s).current_path = (match s with
      | .Single m => st.current_path ++ [m]
      | .Double fst snd => st.current_path ++ [fst, snd]) := by
  cases s <;> rfl

theorem dfs_undo_restore (st X : DFSState) (s : MoveSequence) (hv : ValidBoard st.board)
    (hx : seq_executable st.board s)
    (hXb : X.board = (dfs_exec_move_sequence st s).board)
    (hXp : X.current_path = (dfs_exec_move_sequence st s).current_path) :
    (dfs_undo_move_sequence X s).board = st.board ∧
    (dfs_undo_move_sequence X s).current_path = st.current_path := by
  cases s with
  | Single m =>
    have hXb2 : X.board = exec_move st.board m := hXb
    have hXp2 : X.current_path = st.current_path ++ [m] := hXp
    constructor
    · show exec_move X.board m.opposite = st.board
      rw [hXb2]
      exact exec_move_roundtrip hv hx
    · show X.current_path.dropLast = st.current_path
      rw [hXp2]
      exact List.dropLast_concat
  | Double fst snd =>
    have hXb2 : X.board = exec_move (exec_move st.board fst) snd := hXb
    have hXp2 : X.current_path = st.current_path ++ [fst, snd] := hXp
    constructor
    · show exec_move (exec_move X.board snd.opposite) fst.opposite = st.board
      rw [hXb2, exec_move_roundtrip (exec_move_valid hv hx.1) hx.2]
      exact exec_move_roundtrip hv hx.1
    · show X.current_path.dropLast.dropLast = st.current_path
      rw [hXp2]
      have hsplit : st.current_path ++ [fst, snd] = (st.current_path ++ [fst]) ++ [snd] := by
        simp
      rw [hsplit, List.dropLast_concat, List.dropLast_concat]

theorem perform_iteration_restore (order : List BoardMove) :
    ∀ (fuel : Nat) (st : DFSState) (depth : Nat) (md : Option Nat), ValidBoard st.board →
      (perform_iteration order fuel st depth md).2 = false →
      (perform_iteration order fuel st depth md).1.board = st.board ∧
      (perform_iteration order fuel st depth md).1.current_path = st.current_path := by
  intro fuel
  induction fuel with
  | zero =>
    intro st depth md hv _
    exact ⟨rfl, rfl⟩
  | succ fuel ih =>
    intro st depth md hv
    by_cases hs : is_solved st.board = true
    · simp [perform_iteration, hs]
    · by_cases hcont : st.board ∈ st.visited
      · simp [perform_iteration, hs, hcont]
      · by_cases hd : (match md with
          | some m => decide (depth ≥ m)
          | none => false) = true
        · simp [perform_iteration, hs, hcont, hd]
        · have hunf : perform_iteration order (fuel + 1) st depth md =
              (generate_moves order st.board st.current_path.getLast?).foldl
                (fun acc next_move =>
                  match acc with
                  | (stAcc, true) => (stAcc, true)
                  | (stAcc, false) =>
                    match perform_iteration order fuel (dfs_exec_move_sequence stAcc next_move)
                        (depth + 2) md with
                    | (r, true) => (r, true)
                    | (r, false) => (dfs_undo_move_sequence r next_move, false))
                ({ st with visited := st.board :: st.visited }, false) := by
            simp [perform_iteration, hs, hcont, hd]
          rw [hunf]
          have hmoves := generate_moves_executable order hv st.current_path.getLast?
          have key : ∀ (moves : List MoveSequence) (acc : DFSState × Bool),
              (∀ s ∈ moves, seq_executable st.board s) →
              (acc.2 = false → acc.1.board = st.board ∧
                acc.1.current_path = st.current_path) →
              ((moves.foldl
                (fun acc next_move =>
                  match acc with
                  | (stAcc, true) => (stAcc, true)
                  | (stAcc, false) =>
                    match perform_iteration order fuel (dfs_exec_move_sequence stAcc next_move)
                        (depth + 2) md with
                    | (r, true) => (r, true)
                    | (r, false) => (dfs_undo_move_sequence r next_move, false)) acc).2 = false →
                (moves.foldl
                  (fun acc next_move =>
                    match acc with
                    | (stAcc, true) => (stAcc, true)
                    | (stAcc, false) =>
                      match perform_iteration order fuel (dfs_exec_move_sequence stAcc next_move)
                          (depth + 2) md with
                      | (r, true) => (r, true)
                      | (r, false) => (dfs_undo_move_sequence r next_move, false)) acc).1.board =
                st.board ∧
                (moves.foldl
                  (fun acc next_move =>
                    match acc with
                    | (stAcc, true) => (stAcc, true)
                    | (stAcc, false) =>
                      match perform_iteration order fuel (dfs_exec_move_sequence stAcc next_move)
                          (depth + 2) md with
                      | (r, true) => (r, true)
                      | (r, false) => (dfs_undo_move_sequence r next_move, false))
                  acc).1.current_path = st.current_path) := by
            intro moves
            induction moves with
            | nil =>
              intro acc _ hacc hfalse
              exact hacc hfalse
            | cons s rest ihm =>
              intro acc hexec hacc
              rw [List.foldl_cons]
              refine ihm _ (fun s2 hs2 => hexec s2 (List.mem_cons_of_mem s hs2)) ?_
              obtain ⟨stA, flag⟩ := acc
              cases flag with
              | true =>
                intro hff
                cases hff
              | false =>
                obtain ⟨hb, hp⟩ := hacc rfl
                have hxs : seq_executable st.board s := hexec s (List.mem_cons_self s rest)
                have hxA : seq_executable stA.board s := by rw [hb]; exact hxs
                have hvst : ValidBoard stA.board := by rw [hb]; exact hv
                have hvA : ValidBoard (dfs_exec_move_sequence stA s).board :=
                  dfs_exec_board_valid stA s hvst hxA
                show ((match perform_iteration order fuel (dfs_exec_move_sequence stA s)
                    (depth + 2) md with
                  | (r, true) => (r, true)
                  | (r, false) => (dfs_undo_move_sequence r s, false)) :
                    DFSState × Bool).2 = false →
                  ((match perform_iteration order fuel (dfs_exec_move_sequence stA s)
                    (depth + 2) md with
                  | (r, true) => (r, true)
                  | (r, false) => (dfs_undo_move_sequence r s, false)) :
                    DFSState × Bool).1.board = st.board ∧
                  ((match perform_iteration order fuel (dfs_exec_move_sequence stA s)
                    (depth + 2) md with
                  | (r, true) => (r, true)
                  | (r, false) => (dfs_undo_move_sequence r s, false)) :
                    DFSState × Bool).1.current_path = st.current_path
                cases hres : perform_iteration order fuel (dfs_exec_move_sequence stA s)
                    (depth + 2) md with
                | mk r flag2 =>
                  cases flag2 with
                  | true =>
                    intro hff
                    exact Bool.noConfusion hff
                  | false =>
                    intro _
                    have hrr := ih (dfs_exec_move_sequence stA s) (depth + 2) md hvA
                    rw [hres] at hrr
                    obtain ⟨hrb, hrp⟩ := hrr (by rfl)
                    have hundo := dfs_undo_restore stA r s hvst hxA hrb hrp
                    constructor
                    · show (dfs_undo_move_sequence r s).board = st.board
                      rw [hundo.1, hb]
                    · show (dfs_undo_move_sequence r s).current_path = st.current_path
                      rw [hundo.2, hp]
          exact key _ _ hmoves (fun _ => ⟨rfl, rfl⟩)

/-- C8 witness: the parity rule applied to the solved 2x2 board (even
required-move parity), where the generator emits only paired moves. -/
theorem movegen_parity_rule_witness :
    ValidBoard (solved_board 2 2) ∧
    (required_moves_parity (solved_board 2 2) = Parity.Odd →
      ∀ s ∈ generate_moves default_order (solved_board 2 2) none, ∃ m, s = MoveSequence.Single m) ∧
    (required_moves_parity (solved_board 2 2) = Parity.Even →
      ∀ s ∈ generate_moves default_order (solved_board 2 2) none,
        ∃ fst snd, s = MoveSequence.Double fst snd) :=
  ⟨by decide, movegen_parity_rule default_order (solved_board 2 2) (by decide) none⟩

theorem idfs_loop_restart (order : List BoardMove) (iteration_fuel : Nat) {b : OwnedBoard}
    (hv : ValidBoard b) :
    ∀ (outer_fuel max_depth : Nat),
      idfs_loop order iteration_fuel outer_fuel max_depth (initial_dfs_state b) =
        pruned_restart_idfs order iteration_fuel outer_fuel max_depth b := by
  intro outer_fuel
  induction outer_fuel with
  | zero => intro _; rfl
  | succ n ih =>
    intro md
    cases hres : perform_iteration order iteration_fuel (initial_dfs_state b) 0 (some md) with
    | mk r flag =>
      have hL : idfs_loop order iteration_fuel (n + 1) md (initial_dfs_state b) =
          match perform_iteration order iteration_fuel (initial_dfs_state b) 0 (some md) with
          | (r, true) => some r.current_path
          | (r, false) =>
            idfs_loop order iteration_fuel n (md + 1) { r with visited := [] } := rfl
      have hR : pruned_restart_idfs order iteration_fuel (n + 1) md b =
          match perform_iteration order iteration_fuel (initial_dfs_state b) 0 (some md) with
          | (r, true) => some r.current_path
          | (_, false) => pruned_restart_idfs order iteration_fuel n (md + 1) b := rfl
      rw [hL, hR, hres]
      cases flag with
      | true => rfl
      | false =>
        have hrest := perform_iteration_restore order iteration_fuel (initial_dfs_state b) 0
          (some md) hv (by rw [hres])
        rw [hres] at hrest
        obtain ⟨hrb, hrp⟩ := hrest
        show idfs_loop order iteration_fuel n (md + 1) { r with visited := [] } =
          pruned_restart_idfs order iteration_fuel n (md + 1) b
        have hstate : ({ r with visited := [] } : DFSState) = initial_dfs_state b := by
          show ({ visited := [], current_path := r.current_path, board := r.board } :
            DFSState) = initial_dfs_state b
          rw [hrb, hrp]
          rfl
        rw [hstate]
        exact ih (md + 1)

/-- C5: the claim as stated is false — `perform_iteration` keeps visited-state
pruning inside each iteration (counterexample `idfs_differs_from_noprune`).
Amended: for every valid board, `IncrementalDFSSolver::solve` behaves
identically to repeatedly running depth-capped pruned DFS restarted from
scratch on the original board with a fresh visited set, the depth cap growing
by one per restart. -/
theorem idfs_matches_pruned_restarts (order : List BoardMove)
    (iteration_fuel outer_fuel : Nat) {b : OwnedBoard} (hv : ValidBoard b) :
    incremental_dfs_solve order iteration_fuel outer_fuel b =
      pruned_restart_solve order iteration_fuel outer_fuel b := by
  simp only [incremental_dfs_solve, pruned_restart_solve]
  cases h : !is_solvable b with
  | true => simp [h]
  | false =>
    simp only [h, Bool.false_eq_true, if_false]
    exact idfs_loop_restart order iteration_fuel hv outer_fuel 1

/-- C5 witness: the amended equivalence evaluated on the 3x3 board of claim
C3, where both runs return the same 3-move solution. -/
theorem idfs_matches_pruned_restarts_witness :
    ValidBoard cross_strategy_board ∧
    incremental_dfs_solve default_order 12 4 cross_strategy_board =
      pruned_restart_solve default_order 12 4 cross_strategy_board :=
  ⟨by decide, idfs_matches_pruned_restarts default_order 12 4 (by decide)⟩

theorem trace_cycle_stop (cells : List Nat) (fuel x : Nat) (visited : List Nat)
    (hx : x ∈ visited) : trace_cycle cells fuel x visited = (visited, 0) := by
  cases fuel with
  | zero => rfl
  | succ f => simp [trace_cycle, hx]

theorem trace_cycle_step (cells : List Nat) (f x : Nat) (visited : List Nat)
    (hx : x ∉ visited) :
    trace_cycle cells (f + 1) x visited =
      ((trace_cycle cells f (perm_step cells x) (x :: visited)).1,
        (trace_cycle cells f (perm_step cells x) (x :: visited)).2 + 1) := by
  simp [trace_cycle, hx]

theorem iterate_val_mem_iff {n : Nat} {σ : Equiv.Perm (Fin n)} {V : List Nat}
    (hV : ∀ y : Fin n, (y.val ∈ V ↔ (σ y).val ∈ V)) :
    ∀ (m : Nat) (y : Fin n), ((⇑σ)^[m] y).val ∈ V ↔ y.val ∈ V := by
  intro m
  induction m with
  | zero => intro y; exact Iff.rfl
  | succ m ih =>
    intro y
    rw [Function.iterate_succ_apply']
    exact ((hV ((⇑σ)^[m] y)).symm).trans (ih y)

theorem perm_step_val {cells : List Nat} {n : Nat} {σ : Equiv.Perm (Fin n)}
    (hσ : ∀ i : Fin n, cells.getD i.val 0 = (σ i).val) (y : Fin n) :
    perm_step cells y.val = (σ y).val := by
  simp only [perm_step]
  exact hσ y

theorem perm_minimalPeriod_pos {n : Nat} (σ : Equiv.Perm (Fin n)) (x : Fin n) :
    0 < Function.minimalPeriod (⇑σ) x := by
  apply Function.IsPeriodicPt.minimalPeriod_pos (orderOf_pos σ)
  show (⇑σ)^[orderOf σ] x = x
  rw [← Equiv.Perm.coe_pow, pow_orderOf_eq_one]
  rfl

theorem orbit_list_nodup {n : Nat} (σ : Equiv.Perm (Fin n)) (x : Fin n) :
    ((List.range (Function.minimalPeriod (⇑σ) x)).map fun i => (⇑σ)^[i] x).Nodup :=
  (List.nodup_range _).map_on (by
    intro a ha b hb hab
    exact Function.iterate_injOn_Iio_minimalPeriod
      (Set.mem_Iio.mpr (List.mem_range.mp ha)) (Set.mem_Iio.mpr (List.mem_range.mp hb)) hab)

theorem perm_minimalPeriod_le {n : Nat} (σ : Equiv.Perm (Fin n)) (x : Fin n) :
    Function.minimalPeriod (⇑σ) x ≤ n := by
  have h := (orbit_list_nodup σ x).length_le_card
  simpa using h

theorem trace_cycle_orbit {cells : List Nat} {n : Nat} {σ : Equiv.Perm (Fin n)}
    (hσ : ∀ i : Fin n, cells.getD i.val 0 = (σ i).val)
    (x : Fin n) (V : List Nat)
    (hV : ∀ y : Fin n, (y.val ∈ V ↔ (σ y).val ∈ V)) (hxV : x.val ∉ V) :
    ∀ (j m fuel : Nat), m + j = Function.minimalPeriod (⇑σ) x →
      m < Function.minimalPeriod (⇑σ) x → j ≤ fuel →
      trace_cycle cells fuel ((⇑σ)^[m] x).val
          (((List.range m).map fun i => ((⇑σ)^[i] x).val).reverse ++ V) =
        (((List.range (Function.minimalPeriod (⇑σ) x)).map
            fun i => ((⇑σ)^[i] x).val).reverse ++ V,
          j) := by
  intro j
  induction j with
  | zero => intro m fuel hmj hmk _; omega
  | succ j ihj =>
    intro m fuel hmj hmk hfuel
    cases fuel with
    | zero => omega
    | succ f =>
      have hnotmem : ((⇑σ)^[m] x).val ∉
          ((List.range m).map fun i => ((⇑σ)^[i] x).val).reverse ++ V := by
        intro hmem
        rcases List.mem_append.mp hmem with hmem1 | hmem2
        · rw [List.mem_reverse] at hmem1
          obtain ⟨i, hi, hval⟩ := List.mem_map.mp hmem1
          rw [List.mem_range] at hi
          have hfin : (⇑σ)^[i] x = (⇑σ)^[m] x := Fin.val_injective hval
          have heq := Function.iterate_injOn_Iio_minimalPeriod
            (Set.mem_Iio.mpr (hi.trans hmk)) (Set.mem_Iio.mpr hmk) hfin
          omega
        · exact hxV ((iterate_val_mem_iff hV m x).mp hmem2)
      rw [trace_cycle_step _ _ _ _ hnotmem]
      have hps : perm_step cells ((⇑σ)^[m] x).val = ((⇑σ)^[m + 1] x).val := by
        rw [Function.iterate_succ_apply']
        exact perm_step_val hσ _
      have hvis : ((⇑σ)^[m] x).val ::
          (((List.range m).map fun i => ((⇑σ)^[i] x).val).reverse ++ V) =
          ((List.range (m + 1)).map fun i => ((⇑σ)^[i] x).val).reverse ++ V := by
        rw [List.range_succ, List.map_append, List.reverse_append]
        simp
      rw [hps, hvis]
      rcases Nat.eq_zero_or_pos j with hj0 | hjpos
      · subst hj0
        have hm1 : m + 1 = Function.minimalPeriod (⇑σ) x := by omega
        have hx0 : ((⇑σ)^[m + 1] x).val = x.val := by
          rw [hm1, Function.iterate_minimalPeriod]
        have hxmem : ((⇑σ)^[m + 1] x).val ∈
            ((List.range (m + 1)).map fun i => ((⇑σ)^[i] x).val).reverse ++ V := by
          rw [hx0]
          refine List.mem_append.mpr (Or.inl ?_)
          rw [List.mem_reverse]
          exact List.mem_map.mpr ⟨0, List.mem_range.mpr (by omega), rfl⟩
        rw [trace_cycle_stop _ _ _ _ hxmem, hm1]
      · rw [ihj (m + 1) f (by omega) (by omega) (by omega)]

theorem trace_cycle_full {cells : List Nat} {n : Nat} {σ : Equiv.Perm (Fin n)}
    (hσ : ∀ i : Fin n, cells.getD i.val 0 = (σ i).val)
    (x : Fin n) (V : List Nat)
    (hV : ∀ y : Fin n, (y.val ∈ V ↔ (σ y).val ∈ V)) (hxV : x.val ∉ V)
    {fuel : Nat} (hfuel : Function.minimalPeriod (⇑σ) x ≤ fuel) :
    trace_cycle cells fuel x.val V =
      (((List.range (Function.minimalPeriod (⇑σ) x)).map
          fun i => ((⇑σ)^[i] x).val).reverse ++ V,
        Function.minimalPeriod (⇑σ) x) := by
  have hk := perm_minimalPeriod_pos σ x
  have h := trace_cycle_orbit hσ x V hV hxV (Function.minimalPeriod (⇑σ) x) 0 fuel
    (by omega) hk hfuel
  simpa using h

theorem compl_closed {n : Nat} {σ τ : Equiv.Perm (Fin n)} {V : List Nat}
    (hτ : ∀ y : Fin n, (y.val ∈ V → τ y = y) ∧ (y.val ∉ V → τ y = σ y)) :
    ∀ y : Fin n, (y.val ∈ V ↔ (σ y).val ∈ V) := by
  have hfwd : ∀ z : Fin n, z.val ∉ V → (σ z).val ∉ V := by
    intro z hz hσz
    have h1 : τ z = σ z := (hτ z).2 hz
    have h2 : τ (σ z) = σ z := (hτ (σ z)).1 hσz
    have h4 : z = σ z := τ.injective (h1.trans h2.symm)
    exact hz (h4 ▸ hσz)
  intro y
  constructor
  · intro hy
    by_contra hσy
    have hmaps : (Finset.univ.filter fun z : Fin n => z.val ∉ V).image σ ⊆
        Finset.univ.filter fun z : Fin n => z.val ∉ V := by
      intro w hw
      obtain ⟨z, hz, rfl⟩ := Finset.mem_image.mp hw
      simp only [Finset.mem_filter, Finset.mem_univ, true_and] at hz ⊢
      exact hfwd z hz
    have hcard : (Finset.univ.filter fun z : Fin n => z.val ∉ V).card ≤
        ((Finset.univ.filter fun z : Fin n => z.val ∉ V).image σ).card := by
      rw [Finset.card_image_of_injective _ σ.injective]
    have heq := Finset.eq_of_subset_of_card_le hmaps hcard
    have hmem : σ y ∈ (Finset.univ.filter fun z : Fin n => z.val ∉ V).image σ := by
      rw [heq]
      simp only [Finset.mem_filter, Finset.mem_univ, true_and]
      exact hσy
    obtain ⟨z, hz, hzy⟩ := Finset.mem_image.mp hmem
    have hzey : z = y := σ.injective hzy
    subst hzey
    simp only [Finset.mem_filter, Finset.mem_univ, true_and] at hz
    exact hz hy
  · intro hσy
    by_contra hy
    exact hfwd y hy hσy

theorem orbit_list_length {n : Nat} (σ : Equiv.Perm (Fin n)) (x : Fin n) :
    ((List.range (Function.minimalPeriod (⇑σ) x)).map fun i => (⇑σ)^[i] x).length =
      Function.minimalPeriod (⇑σ) x := by
  simp

theorem orbit_list_getElem {n : Nat} (σ : Equiv.Perm (Fin n)) (x : Fin n) (i : Nat)
    (h : i < ((List.range (Function.minimalPeriod (⇑σ) x)).map fun j => (⇑σ)^[j] x).length) :
    ((List.range (Function.minimalPeriod (⇑σ) x)).map fun j => (⇑σ)^[j] x)[i] =
      (⇑σ)^[i] x := by
  simp

theorem orbit_formPerm_apply_mem {n : Nat} (σ : Equiv.Perm (Fin n)) (x : Fin n)
    (y : Fin n)
    (hy : y ∈ (List.range (Function.minimalPeriod (⇑σ) x)).map fun i => (⇑σ)^[i] x) :
    ((List.range (Function.minimalPeriod (⇑σ) x)).map fun i => (⇑σ)^[i] x).formPerm y =
      σ y := by
  obtain ⟨i, hi, rfl⟩ := List.mem_map.mp hy
  rw [List.mem_range] at hi
  have hlen := orbit_list_length σ x
  have hi2 : i < ((List.range (Function.minimalPeriod (⇑σ) x)).map
      fun j => (⇑σ)^[j] x).length := by omega
  rw [← orbit_list_getElem σ x i hi2,
    List.formPerm_apply_getElem _ (orbit_list_nodup σ x) i hi2,
    orbit_list_getElem, orbit_list_getElem]
  rw [hlen]
  rcases Nat.lt_or_ge (i + 1) (Function.minimalPeriod (⇑σ) x) with hlt | hge
  · rw [Nat.mod_eq_of_lt hlt, Function.iterate_succ_apply']
  · have hieq : i + 1 = Function.minimalPeriod (⇑σ) x := by omega
    rw [hieq, Nat.mod_self]
    have hper : (⇑σ)^[Function.minimalPeriod (⇑σ) x] x = x :=
      Function.iterate_minimalPeriod
    rw [← hieq] at hper
    rw [Function.iterate_succ_apply'] at hper
    rw [Function.iterate_zero_apply]
    exact hper.symm

theorem orbit_formPerm_inv_mem {n : Nat} (σ : Equiv.Perm (Fin n)) (x : Fin n)
    (y : Fin n)
    (hy : y ∈ (List.range (Function.minimalPeriod (⇑σ) x)).map fun i => (⇑σ)^[i] x) :
    (((List.range (Function.minimalPeriod (⇑σ) x)).map fun i => (⇑σ)^[i] x).formPerm)⁻¹ y ∈
      (List.range (Function.minimalPeriod (⇑σ) x)).map fun i => (⇑σ)^[i] x := by
  by_contra hz
  have h1 := List.formPerm_apply_of_not_mem hz
  rw [Equiv.Perm.apply_inv_self] at h1
  rw [h1] at hy
  exact hz hy

theorem orbit_formPerm_inv_not_mem {n : Nat} (σ : Equiv.Perm (Fin n)) (x : Fin n)
    (y : Fin n)
    (hy : y ∉ (List.range (Function.minimalPeriod (⇑σ) x)).map fun i => (⇑σ)^[i] x) :
    (((List.range (Function.minimalPeriod (⇑σ) x)).map fun i => (⇑σ)^[i] x).formPerm)⁻¹ y =
      y := by
  have h1 := List.formPerm_apply_of_not_mem hy
  exact (((List.range (Function.minimalPeriod (⇑σ) x)).map
    fun i => (⇑σ)^[i] x).formPerm).injective
    (by rw [Equiv.Perm.apply_inv_self, h1])

theorem orbit_formPerm_sign {n : Nat} (σ : Equiv.Perm (Fin n)) (x : Fin n)
    (hk2 : 2 ≤ Function.minimalPeriod (⇑σ) x) :
    Equiv.Perm.sign
        (((List.range (Function.minimalPeriod (⇑σ) x)).map fun i => (⇑σ)^[i] x).formPerm) =
      -(-1) ^ Function.minimalPeriod (⇑σ) x := by
  have hnd := orbit_list_nodup σ x
  have hlen := orbit_list_length σ x
  have hcy := List.isCycle_formPerm hnd (by omega)
  have hsup := List.support_formPerm_of_nodup _ hnd (by
    intro z hz
    rw [hz] at hlen
    simp at hlen
    omega)
  rw [hcy.sign, hsup, List.toFinset_card_of_nodup hnd, hlen]

theorem orbit_natrev_mem {n : Nat} (σ : Equiv.Perm (Fin n)) (x' y : Fin n) :
    (y.val ∈ ((List.range (Function.minimalPeriod (⇑σ) x')).map
        fun i => ((⇑σ)^[i] x').val).reverse ↔
      y ∈ (List.range (Function.minimalPeriod (⇑σ) x')).map fun i => (⇑σ)^[i] x') := by
  rw [List.mem_reverse]
  constructor
  · intro hy
    obtain ⟨i, hi, hval⟩ := List.mem_map.mp hy
    exact List.mem_map.mpr ⟨i, hi, Fin.val_injective hval⟩
  · intro hy
    obtain ⟨i, hi, hiy⟩ := List.mem_map.mp hy
    exact List.mem_map.mpr ⟨i, hi, by rw [hiy]⟩

theorem step_perm_exists {n : Nat} (σ τ : Equiv.Perm (Fin n)) (V : List Nat)
    (hτ : ∀ y : Fin n, (y.val ∈ V → τ y = y) ∧ (y.val ∉ V → τ y = σ y))
    (x' : Fin n) (hxV : x'.val ∉ V) (hk2 : 2 ≤ Function.minimalPeriod (⇑σ) x') :
    ∃ τ3 : Equiv.Perm (Fin n),
      (∀ y : Fin n,
        (y.val ∈ ((List.range (Function.minimalPeriod (⇑σ) x')).map
            fun i => ((⇑σ)^[i] x').val).reverse ++ V → τ3 y = y) ∧
        (y.val ∉ ((List.range (Function.minimalPeriod (⇑σ) x')).map
            fun i => ((⇑σ)^[i] x').val).reverse ++ V → τ3 y = σ y)) ∧
      -(-1 : ℤˣ) ^ Function.minimalPeriod (⇑σ) x' * Equiv.Perm.sign τ3 =
        Equiv.Perm.sign τ := by
  have hV := compl_closed hτ
  have horbV : ∀ i : Nat, ((⇑σ)^[i] x').val ∉ V := by
    intro i hi
    exact hxV ((iterate_val_mem_iff hV i x').mp hi)
  refine ⟨τ * (((List.range (Function.minimalPeriod (⇑σ) x')).map
    fun i => (⇑σ)^[i] x').formPerm)⁻¹, ?_, ?_⟩
  · intro y
    constructor
    · intro hy
      rcases List.mem_append.mp hy with hyo | hyV
      · have hyo2 := (orbit_natrev_mem σ x' y).mp hyo
        have hinv := orbit_formPerm_inv_mem σ x' y hyo2
        have h5 := orbit_formPerm_apply_mem σ x' _ hinv
        rw [Equiv.Perm.apply_inv_self] at h5
        have h6 : ((((List.range (Function.minimalPeriod (⇑σ) x')).map
            fun i => (⇑σ)^[i] x').formPerm)⁻¹ y).val ∉ V := by
          obtain ⟨i, hi, hval⟩ := List.mem_map.mp hinv
          rw [← hval]
          exact horbV i
        rw [Equiv.Perm.mul_apply, (hτ _).2 h6]
        exact h5.symm
      · have hyno : y ∉ (List.range (Function.minimalPeriod (⇑σ) x')).map
            fun i => (⇑σ)^[i] x' := by
          intro hyo2
          obtain ⟨i, hi, hiy⟩ := List.mem_map.mp hyo2
          rw [← hiy] at hyV
          exact horbV i hyV
        rw [Equiv.Perm.mul_apply, orbit_formPerm_inv_not_mem σ x' y hyno]
        exact (hτ y).1 hyV
    · intro hy
      have hyV : y.val ∉ V := fun h => hy (List.mem_append.mpr (Or.inr h))
      have hyo : y ∉ (List.range (Function.minimalPeriod (⇑σ) x')).map
          fun i => (⇑σ)^[i] x' := by
        intro hyo2
        exact hy (List.mem_append.mpr (Or.inl ((orbit_natrev_mem σ x' y).mpr hyo2)))
      rw [Equiv.Perm.mul_apply, orbit_formPerm_inv_not_mem σ x' y hyo]
      exact (hτ y).2 hyV
  · rw [Equiv.Perm.sign_mul, Equiv.Perm.sign_inv, orbit_formPerm_sign σ x' hk2]
    rw [mul_left_comm, Int.units_mul_self, mul_one]

theorem collect_cons (cells : List Nat) (x : Nat) (rest visited : List Nat) :
    collect_cycle_lengths cells (x :: rest) visited =
      (if (trace_cycle cells (cells.length + 1) x visited).2 > 1
        then (trace_cycle cells (cells.length + 1) x visited).2 ::
          (collect_cycle_lengths cells rest
            (trace_cycle cells (cells.length + 1) x visited).1).1
        else (collect_cycle_lengths cells rest
          (trace_cycle cells (cells.length + 1) x visited).1).1,
       (collect_cycle_lengths cells rest
         (trace_cycle cells (cells.length + 1) x visited).1).2) := rfl

theorem collect_signs {cells : List Nat} {n : Nat} (hn : cells.length = n)
    {σ : Equiv.Perm (Fin n)} (hσ : ∀ i : Fin n, cells.getD i.val 0 = (σ i).val) :
    ∀ (toProcess V : List Nat) (τ : Equiv.Perm (Fin n)),
      (∀ v ∈ toProcess, v < n) →
      (∀ y : Fin n, (y.val ∈ V → τ y = y) ∧ (y.val ∉ V → τ y = σ y)) →
      ∃ τ2 : Equiv.Perm (Fin n),
        (∀ y : Fin n,
          (y.val ∈ (collect_cycle_lengths cells toProcess V).2 → τ2 y = y) ∧
          (y.val ∉ (collect_cycle_lengths cells toProcess V).2 → τ2 y = σ y)) ∧
        ((collect_cycle_lengths cells toProcess V).1.map
            fun l => -(-1 : ℤˣ) ^ l).prod * Equiv.Perm.sign τ2 = Equiv.Perm.sign τ ∧
        (∀ v ∈ V, v ∈ (collect_cycle_lengths cells toProcess V).2) ∧
        (∀ v ∈ toProcess, v ∈ (collect_cycle_lengths cells toProcess V).2) := by
  intro toProcess
  induction toProcess with
  | nil =>
    intro V τ _ hτ
    refine ⟨τ, hτ, ?_, fun v hv => hv, by simp⟩
    rw [show collect_cycle_lengths cells [] V = ([], V) from rfl]
    simp
  | cons x rest ih =>
    intro V τ htp hτ
    have hV := compl_closed hτ
    by_cases hxV : x ∈ V
    · have htr : trace_cycle cells (cells.length + 1) x V = (V, 0) :=
        trace_cycle_stop _ _ _ _ hxV
      rw [collect_cons, htr]
      dsimp only
      rw [if_neg (by norm_num : ¬(0 > 1))]
      obtain ⟨τ2, h1, h2, h3, h4⟩ := ih V τ (fun v hv => htp v (List.mem_cons_of_mem _ hv)) hτ
      refine ⟨τ2, h1, h2, h3, ?_⟩
      intro v hv
      rcases List.mem_cons.mp hv with hv1 | hv2
      · subst hv1
        exact h3 v hxV
      · exact h4 v hv2
    · have hx : x < n := htp x (List.mem_cons_self x rest)
      obtain ⟨x', hx'⟩ : ∃ z : Fin n, z.val = x := ⟨⟨x, hx⟩, rfl⟩
      subst hx'
      have hkpos := perm_minimalPeriod_pos σ x'
      have hkle := perm_minimalPeriod_le σ x'
      have hfuel : Function.minimalPeriod (⇑σ) x' ≤ cells.length + 1 := by
        rw [hn]; omega
      have htr := trace_cycle_full hσ x' V hV hxV hfuel
      rw [collect_cons, htr]
      dsimp only
      rcases Nat.lt_or_ge (Function.minimalPeriod (⇑σ) x') 2 with hk1 | hk2
      · have hk1' : Function.minimalPeriod (⇑σ) x' = 1 := by omega
        rw [hk1']
        rw [if_neg (by norm_num : ¬(1 > 1))]
        have hfix : σ x' = x' := by
          have hp := Function.iterate_minimalPeriod (f := ⇑σ) (x := x')
          rw [hk1'] at hp
          simpa using hp
        have hlistV : ((List.range 1).map fun i => ((⇑σ)^[i] x').val).reverse ++ V =
            x'.val :: V := by
          rw [show List.range 1 = [0] from rfl]
          simp
        rw [hlistV]
        have hτ1 : ∀ y : Fin n,
            (y.val ∈ x'.val :: V → τ y = y) ∧ (y.val ∉ x'.val :: V → τ y = σ y) := by
          intro y
          constructor
          · intro hy
            rcases List.mem_cons.mp hy with h | h
            · have hxy : y = x' := Fin.val_injective h
              subst hxy
              rw [(hτ y).2 hxV]
              exact hfix
            · exact (hτ y).1 h
          · intro hy
            exact (hτ y).2 fun h => hy (List.mem_cons_of_mem _ h)
        obtain ⟨τ2, h1, h2, h3, h4⟩ := ih (x'.val :: V) τ
          (fun v hv => htp v (List.mem_cons_of_mem _ hv)) hτ1
        refine ⟨τ2, h1, h2, ?_, ?_⟩
        · intro v hv
          exact h3 v (List.mem_cons_of_mem _ hv)
        · intro v hv
          rcases List.mem_cons.mp hv with hv1 | hv2
          · subst hv1
            exact h3 _ (List.mem_cons_self _ _)
          · exact h4 v hv2
      · rw [if_pos (by omega : Function.minimalPeriod (⇑σ) x' > 1)]
        obtain ⟨τ3, hτ3, hsign3⟩ := step_perm_exists σ τ V hτ x' hxV hk2
        obtain ⟨τ2, h1, h2, h3, h4⟩ := ih
          (((List.range (Function.minimalPeriod (⇑σ) x')).map
            fun i => ((⇑σ)^[i] x').val).reverse ++ V) τ3
          (fun v hv => htp v (List.mem_cons_of_mem _ hv)) hτ3
        refine ⟨τ2, h1, ?_, ?_, ?_⟩
        · rw [List.map_cons, List.prod_cons, mul_assoc, h2]
          exact hsign3
        · intro v hv
          exact h3 v (List.mem_append.mpr (Or.inr hv))
        · intro v hv
          rcases List.mem_cons.mp hv with hv1 | hv2
          · subst hv1
            refine h3 _ (List.mem_append.mpr (Or.inl ?_))
            exact (orbit_natrev_mem σ x' x').mpr
              (List.mem_map.mpr ⟨0, List.mem_range.mpr (by omega), rfl⟩)
          · exact h4 v hv2

theorem prod_neg_one_pow_cycles (L : List Nat) :
    (L.map fun l => -(-1 : ℤˣ) ^ l).prod =
      (-1 : ℤˣ) ^ (L.filter fun l => l % 2 == 0).length := by
  induction L with
  | nil => simp
  | cons l L ih =>
    rw [List.map_cons, List.prod_cons, ih]
    by_cases h : l % 2 = 0
    · have he : Even l := Nat.even_iff.mpr h
      rw [List.filter_cons_of_pos (by simpa using h), he.neg_one_pow,
        List.length_cons, pow_succ]
      exact mul_comm _ _
    · have ho : Odd l := Nat.odd_iff.mpr (by omega)
      rw [List.filter_cons_of_neg (by simpa using h), ho.neg_one_pow, neg_neg, one_mul]

theorem calculate_parity_eq_sign {cells : List Nat} {n : Nat} (hn : cells.length = n)
    (σ : Equiv.Perm (Fin n)) (hσ : ∀ i : Fin n, cells.getD i.val 0 = (σ i).val) :
    calculate_parity cells =
      (if Equiv.Perm.sign σ = 1 then Parity.Even else Parity.Odd) := by
  have htp : ∀ v ∈ cells, v < n := by
    intro v hv
    obtain ⟨i, hi, hgi⟩ := List.getElem_of_mem hv
    have hiv : cells.getD i 0 = v := by rw [List.getD_eq_getElem _ _ hi, hgi]
    have hi2 : i < n := by omega
    have hs := hσ ⟨i, hi2⟩
    rw [hiv] at hs
    rw [hs]
    exact (σ ⟨i, hi2⟩).isLt
  have hτ0 : ∀ y : Fin n, (y.val ∈ ([] : List Nat) → σ y = y) ∧
      (y.val ∉ ([] : List Nat) → σ y = σ y) := by
    intro y
    exact ⟨fun h => absurd h (List.not_mem_nil _), fun _ => rfl⟩
  obtain ⟨τ2, h1, h2, _, h4⟩ := collect_signs hn hσ cells [] σ htp hτ0
  have hone : τ2 = 1 := by
    apply Equiv.ext
    intro y
    have hy : y.val ∈ cells := by
      have hs := hσ (σ.symm y)
      rw [Equiv.apply_symm_apply] at hs
      have hlt : (σ.symm y).val < cells.length := by rw [hn]; exact (σ.symm y).isLt
      rw [List.getD_eq_getElem _ _ hlt] at hs
      rw [← hs]
      exact List.getElem_mem hlt
    exact (h1 y).1 (h4 y.val hy)
  rw [hone, map_one, mul_one, prod_neg_one_pow_cycles] at h2
  show (if ((collect_cycle_lengths cells cells []).1.filter
      fun len => len % 2 == 0).length % 2 = 0 then Parity.Even else Parity.Odd) = _
  by_cases he : ((collect_cycle_lengths cells cells []).1.filter
      fun len => len % 2 == 0).length % 2 = 0
  · rw [if_pos he]
    have hs1 : Equiv.Perm.sign σ = 1 := by
      rw [← h2]
      exact (Nat.even_iff.mpr he).neg_one_pow
    rw [if_pos hs1]
  · rw [if_neg he]
    have hs1 : ¬Equiv.Perm.sign σ = 1 := by
      rw [← h2]
      intro hcon
      have hev := (neg_one_pow_eq_one_iff_even (R := ℤˣ) (by decide)).mp hcon
      exact he (Nat.even_iff.mp hev)
    rw [if_neg hs1]

theorem exists_cells_perm {cells : List Nat} {n : Nat} (hn : cells.length = n)
    (hperm : cells.Perm (List.range n)) :
    ∃ σ : Equiv.Perm (Fin n), ∀ i : Fin n, cells.getD i.val 0 = (σ i).val := by
  have hnd : cells.Nodup := hperm.nodup_iff.mpr (List.nodup_range n)
  have hlt : ∀ i : Fin n, cells.getD i.val 0 < n := by
    intro i
    have hi : i.val < cells.length := by rw [hn]; exact i.isLt
    rw [List.getD_eq_getElem _ _ hi]
    exact List.mem_range.mp (hperm.mem_iff.mp (List.getElem_mem hi))
  have hidx : ∀ j : Fin n, cells.indexOf j.val < n := by
    intro j
    have hj : j.val ∈ cells := hperm.mem_iff.mpr (List.mem_range.mpr j.isLt)
    have h2 := List.indexOf_lt_length.mpr hj
    omega
  refine ⟨⟨fun i => ⟨cells.getD i.val 0, hlt i⟩, fun j => ⟨cells.indexOf j.val, hidx j⟩,
    ?_, ?_⟩, fun i => rfl⟩
  · intro i
    apply Fin.ext
    show cells.indexOf (cells.getD i.val 0) = i.val
    have hi : i.val < cells.length := by rw [hn]; exact i.isLt
    rw [List.getD_eq_getElem _ _ hi]
    have hmem : cells[i.val] ∈ cells := List.getElem_mem hi
    have hltidx : cells.indexOf cells[i.val] < cells.length := List.indexOf_lt_length.mpr hmem
    have hval : cells[cells.indexOf cells[i.val]] = cells[i.val] :=
      List.getElem_indexOf hltidx
    exact (List.Nodup.getElem_inj_iff hnd).mp hval
  · intro j
    apply Fin.ext
    show cells.getD (cells.indexOf j.val) 0 = j.val
    have hj : j.val ∈ cells := hperm.mem_iff.mpr (List.mem_range.mpr j.isLt)
    have hltidx : cells.indexOf j.val < cells.length := List.indexOf_lt_length.mpr hj
    rw [List.getD_eq_getElem _ _ hltidx]
    exact List.getElem_indexOf hltidx

theorem calculate_parity_swap {cells : List Nat} {n : Nat} (hn : cells.length = n)
    (hperm : cells.Perm (List.range n)) {i j : Nat} (hi : i < n) (hj : j < n)
    (hne : i ≠ j) :
    calculate_parity (list_swap cells i j) = (calculate_parity cells).opposite := by
  obtain ⟨σ, hσ⟩ := exists_cells_perm hn hperm
  have hswlen : (list_swap cells i j).length = n := by rw [list_swap_length, hn]
  have hσ2 : ∀ y : Fin n, (list_swap cells i j).getD y.val 0 =
      ((σ * Equiv.swap (⟨i, hi⟩ : Fin n) (⟨j, hj⟩ : Fin n)) y).val := by
    intro y
    rw [Equiv.Perm.mul_apply]
    by_cases hyi : y = (⟨i, hi⟩ : Fin n)
    · subst hyi
      rw [Equiv.swap_apply_left]
      show (list_swap cells i j).getD i 0 = (σ ⟨j, hj⟩).val
      rw [getD_list_swap_left cells i j (by rw [hn]; exact hi)]
      exact hσ ⟨j, hj⟩
    · by_cases hyj : y = (⟨j, hj⟩ : Fin n)
      · subst hyj
        rw [Equiv.swap_apply_right]
        show (list_swap cells i j).getD j 0 = (σ ⟨i, hi⟩).val
        rw [getD_list_swap_right cells i j (by rw [hn]; exact hj) hne]
        exact hσ ⟨i, hi⟩
      · rw [Equiv.swap_apply_of_ne_of_ne hyi hyj]
        have hyi2 : y.val ≠ i := fun h => hyi (Fin.ext h)
        have hyj2 : y.val ≠ j := fun h => hyj (Fin.ext h)
        rw [getD_list_swap_other cells i j y.val hyi2 hyj2]
        exact hσ y
  rw [calculate_parity_eq_sign hswlen _ hσ2, calculate_parity_eq_sign hn σ hσ]
  have hsw : Equiv.Perm.sign (σ * Equiv.swap (⟨i, hi⟩ : Fin n) (⟨j, hj⟩ : Fin n)) =
      -Equiv.Perm.sign σ := by
    rw [Equiv.Perm.sign_mul,
      Equiv.Perm.sign_swap (fun h => hne (congrArg Fin.val h)), mul_neg_one]
  rw [hsw]
  rcases Int.units_eq_one_or (Equiv.Perm.sign σ) with h1 | h1
  · rw [h1, if_pos rfl, if_neg (by decide : ¬(-1 : ℤˣ) = 1)]
    rfl
  · rw [h1, neg_neg, if_pos rfl, if_neg (by decide : ¬(-1 : ℤˣ) = 1)]
    rfl

theorem flatMap_range_grid (g : Nat → Nat) :
    ∀ r c : Nat, (List.range r).flatMap
        (fun row => (List.range c).map fun col => g (row * c + col)) =
      (List.range (r * c)).map g := by
  intro r
  induction r with
  | zero => intro c; simp
  | succ r ih =>
    intro c
    rw [List.range_succ, List.flatMap_append, ih c, Nat.succ_mul, List.range_add,
      List.map_append, List.map_map]
    congr 1
    simp [List.flatMap_cons, Function.comp]

theorem map_getD_range (l : List Nat) :
    (List.range l.length).map (fun idx => l.getD idx 0) = l := by
  apply List.ext_getElem
  · simp
  · intro k h1 h2
    rw [List.getElem_map, List.getElem_range, List.getD_eq_getElem _ _ h2]

theorem read_cells_eq {b : OwnedBoard} (hv : ValidBoard b) : read_cells b = b.cells := by
  have h1 : read_cells b =
      (List.range (b.rows * b.columns)).map fun idx => b.cells.getD idx 0 :=
    flatMap_range_grid (fun idx => b.cells.getD idx 0) b.rows b.columns
  rw [h1, ← hv.cells_length, map_getD_range]

theorem fromNat_flip {a b : Nat} (h : a % 2 ≠ b % 2) :
    Parity.fromNat a = (Parity.fromNat b).opposite := by
  simp only [Parity.fromNat]
  split_ifs with h1 h2
  · omega
  · rfl
  · rfl
  · omega

theorem is_solvable_eq (b : OwnedBoard) :
    is_solvable b = (((calculate_parity (read_cells b)).add (solved_board_parity b)) ==
      Parity.fromNat (abs_diff (b.rows - 1) (empty_cell_pos b).1 +
        abs_diff (b.columns - 1) (empty_cell_pos b).2)) := rfl

theorem is_solvable_exec {b : OwnedBoard} {m : BoardMove} (hv : ValidBoard b)
    (hm : can_move b m = true) : is_solvable (exec_move b m) = is_solvable b := by
  have hv2 := exec_move_valid hv hm
  have hperm2 : b.cells.Perm (List.range b.cells.length) := by
    rw [hv.cells_length]
    exact hv.2.2
  have hpar : calculate_parity (read_cells (exec_move b m)) =
      (calculate_parity (read_cells b)).opposite := by
    rw [read_cells_eq hv2, read_cells_eq hv]
    have hcells : (exec_move b m).cells =
        list_swap b.cells (empty_cell_index b) (move_target_index b m) := by
      rw [exec_move_cells_swap m hv]
    rw [hcells]
    exact calculate_parity_swap rfl hperm2 (empty_cell_index_lt hv)
      (move_target_spec hv hm).1 (Ne.symm (move_target_spec hv hm).2.1)
  have hsbp : solved_board_parity (exec_move b m) = solved_board_parity b := rfl
  have hpos := empty_cell_pos_exec hv hm
  have hrowlt := empty_pos_row_lt hv
  have hcollt := empty_pos_col_lt hv
  have hdist : Parity.fromNat
      (abs_diff ((exec_move b m).rows - 1) (empty_cell_pos (exec_move b m)).1 +
        abs_diff ((exec_move b m).columns - 1) (empty_cell_pos (exec_move b m)).2) =
      (Parity.fromNat (abs_diff (b.rows - 1) (empty_cell_pos b).1 +
        abs_diff (b.columns - 1) (empty_cell_pos b).2)).opposite := by
    rw [hpos, exec_move_rows, exec_move_columns]
    apply fromNat_flip
    cases m with
    | Up =>
      have h0 : 0 < (empty_cell_pos b).1 := by simpa [can_move] using hm
      have hpos2 : move_target_pos b BoardMove.Up =
          ((empty_cell_pos b).1 - 1, (empty_cell_pos b).2) := rfl
      rw [hpos2]
      dsimp only
      simp only [abs_diff]
      split_ifs <;> omega
    | Down =>
      have h0 : (empty_cell_pos b).1 < b.rows - 1 := by simpa [can_move] using hm
      have hpos2 : move_target_pos b BoardMove.Down =
          ((empty_cell_pos b).1 + 1, (empty_cell_pos b).2) := rfl
      rw [hpos2]
      dsimp only
      simp only [abs_diff]
      split_ifs <;> omega
    | Left =>
      have h0 : 0 < (empty_cell_pos b).2 := by simpa [can_move] using hm
      have hpos2 : move_target_pos b BoardMove.Left =
          ((empty_cell_pos b).1, (empty_cell_pos b).2 - 1) := rfl
      rw [hpos2]
      dsimp only
      simp only [abs_diff]
      split_ifs <;> omega
    | Right =>
      have h0 : (empty_cell_pos b).2 < b.columns - 1 := by simpa [can_move] using hm
      have hpos2 : move_target_pos b BoardMove.Right =
          ((empty_cell_pos b).1, (empty_cell_pos b).2 + 1) := rfl
      rw [hpos2]
      dsimp only
      simp only [abs_diff]
      split_ifs <;> omega
  have hbeq : ∀ p s f : Parity, ((p.opposite.add s) == f.opposite) = ((p.add s) == f) := by
    intro p s f
    cases p <;> cases s <;> cases f <;> rfl
  rw [is_solvable_eq (exec_move b m), is_solvable_eq b, hpar, hsbp, hdist]
  exact hbeq _ _ _

theorem solved_board_valid {r c : Nat} (hr : 0 < r) (hc : 0 < c) :
    ValidBoard (solved_board r c) := by
  refine ⟨hr, hc, ?_⟩
  show (List.range' 1 (r * c - 1) ++ [0]).Perm (List.range (r * c))
  have hN := Nat.mul_pos hr hc
  have h1 : List.range (r * c) = 0 :: List.range' 1 (r * c - 1) := by
    rw [show r * c = (r * c - 1) + 1 from by omega, List.range_eq_range',
      List.range'_succ]
    simp
  rw [h1]
  exact List.perm_append_singleton 0 (List.range' 1 (r * c - 1))

theorem is_solvable_solved_board {r c : Nat} (hr : 0 < r) (hc : 0 < c) :
    is_solvable (solved_board r c) = true := by
  obtain ⟨m, hm⟩ : ∃ m, r * c = m + 1 := ⟨r * c - 1, by
    have := Nat.mul_pos hr hc
    omega⟩
  have hv := solved_board_valid hr hc
  have hcells : (solved_board r c).cells = List.range' 1 m ++ [0] := by
    show List.range' 1 (r * c - 1) ++ [0] = _
    rw [show r * c - 1 = m from by omega]
  have hlen : (solved_board r c).cells.length = m + 1 := by
    rw [hcells]
    simp
  have hσ : ∀ i : Fin (m + 1),
      (solved_board r c).cells.getD i.val 0 = ((finRotate (m + 1)) i).val := by
    intro i
    rw [hcells]
    rcases Nat.lt_or_ge i.val m with hiv | hiv
    · have hlt : i.val < (List.range' 1 m).length := by simp [hiv]
      have hlt2 : i.val < (List.range' 1 m ++ [0]).length := by simp
      rw [List.getD_eq_getElem _ _ hlt2, List.getElem_append_left hlt,
        List.getElem_range'_1, finRotate_succ_apply, Fin.val_add_one,
        if_neg (by
          intro h
          rw [h, Fin.val_last] at hiv
          omega)]
      omega
    · have him : i.val = m := by omega
      have hlt2 : i.val < (List.range' 1 m ++ [0]).length := by simp
      rw [List.getD_eq_getElem _ _ hlt2, List.getElem_append_right (by simp [him]),
        finRotate_succ_apply, Fin.val_add_one,
        if_pos (Fin.ext (by rw [Fin.val_last]; exact him))]
      simp [him]
  have hbridge := calculate_parity_eq_sign hlen (finRotate (m + 1)) hσ
  rw [sign_finRotate] at hbridge
  have hmul : c ≤ r * c := Nat.le_mul_of_pos_left c hr
  have hsub : (r - 1) * c = r * c - c := by rw [Nat.sub_mul, one_mul]
  have hidx : empty_cell_index (solved_board r c) = m := by
    show (solved_board r c).cells.indexOf 0 = m
    rw [hcells, List.indexOf_append_of_not_mem (by
      intro hmem
      have h2 := (List.mem_range'_1.mp hmem).1
      omega)]
    simp
  have hdecomp : m = (r - 1) * c + (c - 1) := by omega
  have hpos1 : (empty_cell_pos (solved_board r c)).1 = r - 1 := by
    show empty_cell_index (solved_board r c) / (solved_board r c).columns = r - 1
    rw [hidx]
    show m / c = r - 1
    rw [hdecomp]
    exact pos_flatten_div _ _ _ (by omega)
  have hpos2 : (empty_cell_pos (solved_board r c)).2 = c - 1 := by
    show empty_cell_index (solved_board r c) % (solved_board r c).columns = c - 1
    rw [hidx]
    show m % c = c - 1
    rw [hdecomp]
    exact pos_flatten_mod _ _ _ (by omega)
  rw [is_solvable_eq, read_cells_eq hv, hbridge, hpos1, hpos2]
  have habs1 : abs_diff ((solved_board r c).rows - 1) (r - 1) = 0 := by
    show abs_diff (r - 1) (r - 1) = 0
    simp [abs_diff]
  have habs2 : abs_diff ((solved_board r c).columns - 1) (c - 1) = 0 := by
    show abs_diff (c - 1) (c - 1) = 0
    simp [abs_diff]
  rw [habs1, habs2]
  show ((if (-1 : ℤˣ) ^ m = 1 then Parity.Even else Parity.Odd).add
      (Parity.fromNat (r * c)).opposite == Parity.fromNat (0 + 0)) = true
  by_cases hev : Even m
  · rw [if_pos hev.neg_one_pow]
    have hf : Parity.fromNat (r * c) = Parity.Odd := by
      simp only [Parity.fromNat]
      rw [if_neg (by
        rw [hm]
        have h2 := Nat.even_iff.mp hev
        omega)]
    rw [hf]
    rfl
  · have ho : Odd m := Nat.not_even_iff_odd.mp hev
    rw [if_neg (by rw [ho.neg_one_pow]; decide)]
    have hf : Parity.fromNat (r * c) = Parity.Even := by
      simp only [Parity.fromNat]
      rw [if_pos (by
        rw [hm]
        have h2 := Nat.odd_iff.mp ho
        omega)]
    rw [hf]
    rfl

theorem reachable_valid {b : OwnedBoard} (h : ReachableFromSolved b) : ValidBoard b := by
  induction h with
  | solved rows columns hr hc => exact solved_board_valid hr hc
  | step b m hb hm ih => exact exec_move_valid ih hm

/-- C1: solvability is invariant under legal moves — for every board satisfying
the one-blank permutation invariant and every executable move, `is_solvable`
of the board after `exec_move` equals `is_solvable` of the board before;
`is_solvable` returns `true` on every solved board with positive dimensions;
and consequently every board reachable from a solved state by a sequence of
legal moves is judged solvable by the oracle. -/
theorem solvability_oracle_invariant :
    (∀ (b : OwnedBoard) (m : BoardMove), ValidBoard b → can_move b m = true →
        is_solvable (exec_move b m) = is_solvable b) ∧
    (∀ rows columns : Nat, 0 < rows → 0 < columns →
        is_solvable (solved_board rows columns) = true) ∧
    (∀ b : OwnedBoard, ReachableFromSolved b → is_solvable b = true) := by
  refine ⟨fun b m hv hm => is_solvable_exec hv hm,
    fun rows columns hr hc => is_solvable_solved_board hr hc, ?_⟩
  intro b h
  induction h with
  | solved rows columns hr hc => exact is_solvable_solved_board hr hc
  | step b m hb hm ih =>
    rw [is_solvable_exec (reachable_valid hb) hm]
    exact ih

/-- C1 witness: the invariance applied to the concrete 4x4 board
`1..14,0,15` with a Right move, solvability of the solved 4x4 board, and
solvability of a board one legal move away from the solved 2x2 board. -/
theorem solvability_oracle_invariant_witness :
    is_solvable (exec_move rotated_board_4x4 BoardMove.Right) =
      is_solvable rotated_board_4x4 ∧
    is_solvable (solved_board 4 4) = true ∧
    is_solvable (exec_move (solved_board 2 2) BoardMove.Up) = true :=
  ⟨solvability_oracle_invariant.1 rotated_board_4x4 BoardMove.Right (by decide) (by decide),
   solvability_oracle_invariant.2.1 4 4 (by decide) (by decide),
   solvability_oracle_invariant.2.2 (exec_move (solved_board 2 2) BoardMove.Up)
     (ReachableFromSolved.step (solved_board 2 2) BoardMove.Up
       (ReachableFromSolved.solved 2 2 (by decide) (by decide)) (by decide))⟩

end Puzzle
